import Mathlib

/-!
# dtestapi: assertion engine, path resolver and substitution store

A shallow embedding of `internal/validator.go` and `internal/runner.go`.

* A decoded JSON body (`map[string]any`, `[]any`, `string`, `float64`, `bool`,
  `nil`) is a `JVal`.  A Go map is an association list; Go maps hold each key
  once, which is the predicate `JVal.uniqueKeys`.  Numbers are compared by the
  code with `==` only and are carried as integers.
* The package-level `capturedValues` and the file written by
  `saveResponseToFile` form the `World` threaded through the stateful
  functions.
* The order in which a Go `range` loop visits a map is not fixed by the
  language.  Loops whose result cannot depend on it (`checkFieldExists`,
  `removeIgnoredFields`) walk the association list; the loop of
  `ReplaceCapturedValues`, whose result can, takes the visiting order as an
  argument (`RangeOrder`).
* The network is a parameter (`Env`): whether `http.NewRequest` fails and what
  the server answers.  `RunTests` is embedded with the parallelism flag off;
  a Go panic (index out of range) is the result `none`.  The lock and the
  accesses to the shared state of one call are listed, in program order, as
  `Event`s; the interleaving of goroutines is not modelled.
* Go strings that come out of `encoding/json` are valid UTF-8 and the
  separators used by the code (`.`, `$`, `*`) are ASCII, so byte-wise search
  and character-wise search agree; strings are Lean strings.
-/

namespace Dtestapi

/-! ## Strings (the functions of Go package `strings` used by the code) -/

namespace strings

/-- Segments of a character list cut at every occurrence of `sep`. -/
def splitChars (sep : Char) : List Char → List (List Char)
  | [] => [[]]
  | c :: cs =>
    if c = sep then [] :: splitChars sep cs
    else
      match splitChars sep cs with
      | [] => [[c]]
      | seg :: segs => (c :: seg) :: segs

/-- Go `strings.Split(s, sep)` for a one-character separator: never empty,
`Split "" '.' = [""]`. -/
def Split (s : String) (sep : Char) : List String :=
  (splitChars sep s.data).map String.mk

/-- Go `strings.HasSuffix(s, suffix)`. -/
def HasSuffix (s suffix : String) : Bool :=
  suffix.data.isSuffixOf s.data

/-- Left-to-right replacement of the non-overlapping occurrences of a
non-empty `old`; `skip` counts the characters of a matched occurrence that
are still to be dropped. -/
def replaceChars (old new : List Char) : Nat → List Char → List Char
  | _, [] => []
  | skip + 1, _ :: cs => replaceChars old new skip cs
  | 0, c :: cs =>
    if old.isPrefixOf (c :: cs) then new ++ replaceChars old new (old.length - 1) cs
    else c :: replaceChars old new 0 cs

/-- Go `strings.ReplaceAll(s, old, new)`.  With an empty `old` Go inserts `new`
before every character and at the end. -/
def ReplaceAll (s old new : String) : String :=
  if old.data = [] then
    String.mk (new.data ++ s.data.flatMap (fun c => c :: new.data))
  else
    String.mk (replaceChars old.data new.data 0 s.data)

end strings

/-! ## Response trees -/

/-- The dynamic values produced by `encoding/json` when decoding into `any`. -/
inductive JVal where
  | null : JVal
  | bool (b : Bool) : JVal
  | num (n : Int) : JVal
  | str (s : String) : JVal
  | arr (items : List JVal) : JVal
  | obj (fields : List (String × JVal)) : JVal

/-- A Go `map[string]any`; the nil map and the empty map are both `[]`. -/
abbrev JMap := List (String × JVal)

/-! ## Go maps with string keys, as association lists -/

namespace GoMap

/-- Go `v, exists := m[key]`. -/
def get {β : Type} : List (String × β) → String → Option β
  | [], _ => none
  | (k, v) :: rest, key => if k = key then some v else get rest key

/-- Go `m[key] = value`: the entry is overwritten where the key is present
and added otherwise. -/
def set {β : Type} : List (String × β) → String → β → List (String × β)
  | [], key, value => [(key, value)]
  | (k, v) :: rest, key, value =>
    if k = key then (key, value) :: rest else (k, v) :: set rest key value

/-- The keys of a map. -/
def keys {β : Type} (m : List (String × β)) : List String := m.map Prod.fst

end GoMap

mutual
/-- Structural equality test of two trees (same constructors, same entries in
the same order). -/
def JVal.beq : JVal → JVal → Bool
  | .null, .null => true
  | .bool a, .bool b => decide (a = b)
  | .num a, .num b => decide (a = b)
  | .str a, .str b => decide (a = b)
  | .arr xs, .arr ys => beqSlice xs ys
  | .obj m, .obj n => beqFields m n
  | _, _ => false
/-- Structural equality test of two sequences. -/
def beqSlice : List JVal → List JVal → Bool
  | [], [] => true
  | x :: xs, y :: ys => JVal.beq x y && beqSlice xs ys
  | _, _ => false
/-- Structural equality test of two entry lists. -/
def beqFields : List (String × JVal) → List (String × JVal) → Bool
  | [], [] => true
  | (k, v) :: m, (k2, v2) :: n => decide (k = k2) && JVal.beq v v2 && beqFields m n
  | _, _ => false
end

mutual
/-- Every mapping of the tree holds each of its keys once (true of every Go map). -/
def JVal.uniqueKeys : JVal → Bool
  | .arr items => uniqueKeysSlice items
  | .obj fields => uniqueKeysFields [] fields
  | _ => true
/-- The elements of a sequence have unique keys. -/
def uniqueKeysSlice : List JVal → Bool
  | [] => true
  | x :: xs => JVal.uniqueKeys x && uniqueKeysSlice xs
/-- The entries of a mapping have keys different from `seen` and from each
other, and values with unique keys. -/
def uniqueKeysFields (seen : List String) : List (String × JVal) → Bool
  | [] => true
  | (k, v) :: rest =>
    !(seen.contains k) && JVal.uniqueKeys v && uniqueKeysFields (k :: seen) rest
end

mutual
/-- Go `reflect.DeepEqual` on decoded JSON values. -/
def DeepEqual : JVal → JVal → Bool
  | .null, .null => true
  | .bool a, .bool b => decide (a = b)
  | .num a, .num b => decide (a = b)
  | .str a, .str b => decide (a = b)
  | .arr xs, .arr ys => deepEqualSlice xs ys
  | .obj m, .obj n => decide (m.length = n.length) && deepEqualMap m n
  | _, _ => false
/-- Slices: same length, elements deeply equal position by position. -/
def deepEqualSlice : List JVal → List JVal → Bool
  | [], [] => true
  | x :: xs, y :: ys => DeepEqual x y && deepEqualSlice xs ys
  | _, _ => false
/-- Maps: every key of the first is a key of the second with a deeply equal
value (the lengths are compared by the caller). -/
def deepEqualMap : List (String × JVal) → List (String × JVal) → Bool
  | [], _ => true
  | (k, v) :: rest, n =>
    (match GoMap.get n k with
     | some w => DeepEqual v w
     | none => false) && deepEqualMap rest n
end

/-! ## Path resolver -/

/-- `checkFieldExists` of `validator.go`. -/
def checkFieldExists (data : JVal) (keys : List String) : Bool :=
  match keys with
  | [] => true
  | currentKey :: remainingKeys =>
    match data with
    | .obj v =>
      if currentKey = "*" then
        v.any (fun kv => checkFieldExists kv.2 remainingKeys)
      else
        match GoMap.get v currentKey with
        | some val => checkFieldExists val remainingKeys
        | none => false
    | .arr v =>
      if currentKey = "*" then
        v.any (fun item => checkFieldExists item remainingKeys)
      else false
    | _ => false

/-- `fieldExists` of `validator.go`. -/
def fieldExists (data : JMap) (field : String) : Bool :=
  checkFieldExists (.obj data) (strings.Split field '.')

/-- `isFieldIgnored` of `validator.go`. -/
def isFieldIgnored (field : String) (ignoreFields : List String) : Bool :=
  ignoreFields.any (fun ignored =>
    decide (ignored = field) || strings.HasSuffix ignored ("." ++ field)
      || strings.HasSuffix ignored ".*")

mutual
/-- `removeIgnoredFields` of `validator.go`. -/
def removeIgnoredFields (data : List (String × JVal)) (ignoreFields : List String) :
    List (String × JVal) :=
  match data with
  | [] => []
  | (key, value) :: rest =>
    if isFieldIgnored key ignoreFields then removeIgnoredFields rest ignoreFields
    else (key, removeIgnoredValue value ignoreFields) :: removeIgnoredFields rest ignoreFields
/-- The value stored under a kept key (lines 93-97): a nested map is cleaned,
any other value is stored as it is. -/
def removeIgnoredValue (value : JVal) (ignoreFields : List String) : JVal :=
  match value with
  | .obj nestedMap => .obj (removeIgnoredFields nestedMap ignoreFields)
  | _ => value
end

/-- The loop of `extractField`: `current` is the map reached so far. -/
def extractFieldLoop (current : JMap) : List String → String
  | [] => ""
  | key :: keys =>
    match GoMap.get current key with
    | none => ""
    | some (.str strVal) => strVal
    | some (.obj nestedMap) => extractFieldLoop nestedMap keys
    | some _ => ""

/-- `extractField` of `validator.go`. -/
def extractField (data : JMap) (fieldPath : String) : String :=
  extractFieldLoop data (strings.Split fieldPath '.')

/-! ## Substitution store, snapshot file and assertion engine -/

/-- The package-level `capturedValues`, a `map[string]string`. -/
abbrev Store := List (String × String)

/-- What the functions of the package read and write besides their arguments:
the Substitution Store and the files written by `saveResponseToFile`
(each write as file name and tree handed to `json.MarshalIndent`, oldest
first; the content of a file is its last write). -/
structure World where
  capturedValues : Store
  files : List (String × JMap)

/-- `saveResponseToFile` of `validator.go`. -/
def saveResponseToFile (data : JMap) (filename : String) (w : World) : World :=
  { w with files := w.files ++ [(filename, data)] }

/-- The capture loop of `AssertResponse` (lines 24-28). -/
def captureLoop (actualBody : JMap) : List String → Store → Store
  | [], capturedValues => capturedValues
  | field :: rest, capturedValues =>
    let value := extractField actualBody field
    if value ≠ "" then captureLoop actualBody rest (GoMap.set capturedValues field value)
    else captureLoop actualBody rest capturedValues

/-- `AssertResponse` of `validator.go`: the verdict, the message and the world
after the call. -/
def AssertResponse (actualBody expectedBody : JMap) (ignoreFields captureFields : List String)
    (w : World) : (Bool × String) × World :=
  match ignoreFields.find? (fun field => !fieldExists actualBody field) with
  | some field =>
    ((false, "Ignored field '" ++ field ++ "' is missing in actual response"),
      saveResponseToFile actualBody "result.json" w)
  | none =>
    let w1 : World :=
      { w with capturedValues := captureLoop actualBody captureFields w.capturedValues }
    let cleanedExpected := removeIgnoredFields expectedBody ignoreFields
    let cleanedActual := removeIgnoredFields actualBody ignoreFields
    let w2 := saveResponseToFile cleanedActual "result.json" w1
    if DeepEqual (.obj cleanedActual) (.obj cleanedExpected) then ((true, ""), w2)
    else ((false, "Response body does not match expected output"), w2)

/-! ## Placeholder substitution -/

/-- The order in which a `range` over the Substitution Store visits its
entries, for the loop run at a position of the payload tree (the child
indices on the way from the root to the string leaf, the root's child first). -/
abbrev RangeOrder := List Nat → Store → List (String × String)

/-- A visiting order visits every entry of the store once. -/
def RangeOrder.Valid (order : RangeOrder) : Prop :=
  ∀ pos store, (order pos store).Perm store

/-- The order that visits the entries as the association list holds them. -/
def RangeOrder.stored : RangeOrder := fun _ store => store

/-- The order that visits the entries from the last listed to the first. -/
def RangeOrder.reversed : RangeOrder := fun _ store => store.reverse

/-- The string case of `ReplaceCapturedValues` (lines 137-140): one
`ReplaceAll` per visited entry, applied to the running result. -/
def replaceInString (visited : List (String × String)) (v : String) : String :=
  visited.foldl (fun v kv => strings.ReplaceAll v ("$" ++ kv.1) kv.2) v

mutual
/-- `ReplaceCapturedValues` of `validator.go`. -/
def ReplaceCapturedValues (order : RangeOrder) (capturedValues : Store) : JVal → JVal
  | .str v => .str (replaceInString (order [] capturedValues) v)
  | .obj v => .obj (replaceCapturedFields order capturedValues 0 v)
  | .arr v => .arr (replaceCapturedItems order capturedValues 0 v)
  | v => v
/-- The map case: entry number `i` onwards. -/
def replaceCapturedFields (order : RangeOrder) (capturedValues : Store) (i : Nat) :
    List (String × JVal) → List (String × JVal)
  | [] => []
  | (k, val) :: rest =>
    (k, ReplaceCapturedValues (fun pos => order (i :: pos)) capturedValues val)
      :: replaceCapturedFields order capturedValues (i + 1) rest
/-- The slice case: element number `i` onwards. -/
def replaceCapturedItems (order : RangeOrder) (capturedValues : Store) (i : Nat) :
    List JVal → List JVal
  | [] => []
  | val :: rest =>
    ReplaceCapturedValues (fun pos => order (i :: pos)) capturedValues val
      :: replaceCapturedItems order capturedValues (i + 1) rest
end

/-! ## Runner -/

/-- `ExpectedResponse` of `types.go`. -/
structure ExpectedResponse where
  Status : Int
  Body : JMap
  Ignore : List String

/-- `TestCase` of `types.go`. -/
structure TestCase where
  ID : String
  Name : String
  Method : String
  URL : String
  Headers : List (String × String)
  Body : List JVal
  DependsOn : String
  Capture : List String
  Expect : List ExpectedResponse

/-- `TestResult` of `types.go`; `Timestamp` is never assigned by the code and
is left out. -/
structure TestResult where
  TestID : String
  Name : String
  Success : Bool
  Error : String
  Response : JMap

/-- The request handed to `http.DefaultClient.Do`: method, URL, the payload
serialised by `json.Marshal` and the `Header.Set` calls made on it. -/
structure Request where
  Method : String
  URL : String
  Body : JVal
  Header : List (String × String)

/-- What `ExecuteTest` does not decide itself: the visiting orders of its
`range` loops over the store, whether `http.NewRequest` fails (with which
error), and what the server answers to a request: an error, or a status code
and the body as decoded by `json.Unmarshal` (`[]` when decoding fails). -/
structure Env where
  payloadOrder : RangeOrder
  headerOrder : String → RangeOrder
  newRequest : String → String → Option String
  roundTrip : Request → Except String (Int × JMap)

/-- What a call of `ExecuteTest` leaves behind: the result, the header map of
the test case (written in place by the header loop), the `dependencies` map,
the world, and the request that was dispatched, if one was. -/
structure Outcome where
  result : TestResult
  headers : List (String × String)
  dependencies : List (String × JMap)
  world : World
  request : Option Request

/-- Go type assertion `.(string)`; `ReplaceCapturedValues` of a string is a
string, so the other case does not occur. -/
def JVal.assertString : JVal → String
  | .str s => s
  | _ => ""

/-- The header loop of `ExecuteTest` (lines 71-74): every header value
rewritten with the store. -/
def substituteHeaders (env : Env) (capturedValues : Store) (headers : List (String × String)) :
    List (String × String) :=
  headers.map (fun kv =>
    (kv.1, JVal.assertString
      (ReplaceCapturedValues (env.headerOrder kv.1) capturedValues (.str kv.2))))

/-- The request `ExecuteTest` builds (lines 62-74) once `http.NewRequest` has
succeeded. -/
def buildRequest (env : Env) (test : TestCase) (payload : JVal) (w : World) : Request :=
  { Method := test.Method, URL := test.URL,
    Body := ReplaceCapturedValues env.payloadOrder w.capturedValues payload,
    Header := substituteHeaders env w.capturedValues test.Headers }

/-- `ExecuteTest` of `runner.go`. -/
def ExecuteTest (env : Env) (test : TestCase) (payload : JVal) (expected : ExpectedResponse)
    (dependencies : List (String × JMap)) (w : World) : Outcome :=
  match env.newRequest test.Method test.URL with
  | some err =>
    { result := { TestID := test.ID, Name := test.Name, Success := false, Error := err,
                  Response := [] },
      headers := test.Headers, dependencies := dependencies, world := w, request := none }
  | none =>
    let req := buildRequest env test payload w
    let headers := req.Header
    match env.roundTrip req with
    | .error err =>
      { result := { TestID := test.ID, Name := test.Name, Success := false, Error := err,
                    Response := [] },
        headers := headers, dependencies := dependencies, world := w, request := some req }
    | .ok (statusCode, actualBody) =>
      let dependencies :=
        if test.ID ≠ "" then GoMap.set dependencies test.ID actualBody else dependencies
      let expectedStatus := expected.Status
      if statusCode ≠ expectedStatus then
        { result := { TestID := test.ID, Name := test.Name, Success := false,
                      Error := "Expected status " ++ toString expectedStatus ++ " but got "
                        ++ toString statusCode,
                      Response := actualBody },
          headers := headers, dependencies := dependencies, world := w, request := some req }
      else
        let r := AssertResponse actualBody expected.Body expected.Ignore test.Capture w
        { result := { TestID := test.ID, Name := test.Name, Success := r.1.1, Error := r.1.2,
                      Response := actualBody },
          headers := headers, dependencies := dependencies, world := r.2, request := some req }

/-! ## Scheduler -/

/-- The expected response `executeMultiplePayloads` picks for the payload
variant `i` (lines 45-50); `none` where the index is out of range and the Go
program panics. -/
def expectedFor (test : TestCase) (i : Nat) : Option ExpectedResponse :=
  if i < test.Expect.length then test.Expect[i]?
  else
    let last : Int := (test.Expect.length : Int) - 1
    if last < 0 then none else test.Expect[last.toNat]?

/-- What the scheduler threads through the test cases: the `dependencies` map,
the world, the result collection, and the requests dispatched so far. -/
structure RunState where
  dependencies : List (String × JMap)
  world : World
  results : List TestResult
  sent : List Request

/-- The loop of `executeMultiplePayloads` from variant `i` on; `test.Headers` is
the header map as the earlier variants left it (`ExecuteTest` writes it in
place); `none` when the program panics. -/
def payloadLoop (env : Nat → Env) : Nat → List JVal → TestCase → RunState → Option RunState
  | _, [], _, st => some st
  | i, payload :: rest, test, st =>
    match expectedFor test i with
    | none => none
    | some expected =>
      let o := ExecuteTest (env i) test payload expected st.dependencies st.world
      payloadLoop env (i + 1) rest { test with Headers := o.headers }
        { dependencies := o.dependencies, world := o.world,
          results := st.results ++ [o.result], sent := st.sent ++ o.request.toList }

/-- `executeMultiplePayloads` of `runner.go`; `env i` is the environment of the
call of `ExecuteTest` for variant `i`. -/
def executeMultiplePayloads (env : Nat → Env) (test : TestCase) (st : RunState) :
    Option RunState :=
  payloadLoop env 0 test.Body test st

/-- The loop of `RunTests` over the test cases, from case number `n` on, when
every case is run in place (no goroutine is launched). -/
def runLoop (env : Nat → Nat → Env) : Nat → List TestCase → RunState → Option RunState
  | _, [], st => some st
  | n, test :: rest, st =>
    match executeMultiplePayloads (env n) test st with
    | none => none
    | some st' => runLoop env (n + 1) rest st'

/-- `RunTests` of `runner.go` with the parallelism flag off, on the test cases
`LoadTests` returned and from the world `w`: the result collection handed to
`LogResults`, `none` when the program panics before. -/
def RunTests (env : Nat → Nat → Env) (tests : List TestCase) (w : World) :
    Option (List TestResult) :=
  (runLoop env 0 tests { dependencies := [], world := w, results := [], sent := [] }).map
    (fun st => st.results)

/-! ## Sample data used by the instances of the theorems -/

namespace Sample

/-- The empty store, nothing written yet. -/
def emptyWorld : World := { capturedValues := [], files := [] }

/-- A server that answers every request with status `A` and body `body`, the
`range` loops visiting the store as it is listed. -/
def server (A : Int) (body : JMap) : Env :=
  { payloadOrder := RangeOrder.stored, headerOrder := fun _ => RangeOrder.stored,
    newRequest := fun _ _ => none, roundTrip := fun _ => .ok (A, body) }

/-- Test A of the scenario: a login that captures `token`. -/
def testA : TestCase :=
  { ID := "A", Name := "login", Method := "POST", URL := "http://localhost/login",
    Headers := [], Body := [.obj [("user", .str "u")]], DependsOn := "",
    Capture := ["token"], Expect := [⟨200, [("token", .str "abc123")], []⟩] }

/-- Test B of the scenario: depends on A and sends the captured token. -/
def testB : TestCase :=
  { ID := "B", Name := "profile", Method := "GET", URL := "http://localhost/me",
    Headers := [("Authorization", "$token")], Body := [.obj [("auth", .str "$token")]],
    DependsOn := "A", Capture := [], Expect := [⟨200, [("name", .str "u")], []⟩] }

/-- Test B with two payload variants and `token` as a capture path. -/
def testTwoVariants : TestCase :=
  { ID := "B", Name := "refresh", Method := "POST", URL := "http://localhost/refresh",
    Headers := [("Authorization", "$token")], Body := [.num 1, .num 2],
    DependsOn := "A", Capture := ["token"], Expect := [⟨200, [], ["token"]⟩] }

/-- A server that answers variant `i` with status 200 and a fresh token. -/
def refreshServer (i : Nat) : Env :=
  server 200 [("token", .str (if i = 0 then "new" else "newer"))]

/-- An environment in which the request of case 0 cannot be constructed, the
first variant of every other case meets a network error and the later
variants are answered with status 404. -/
def mixedEnv (n i : Nat) : Env :=
  { payloadOrder := RangeOrder.stored, headerOrder := fun _ => RangeOrder.stored,
    newRequest := fun _ _ => if n = 0 then some "net/http: invalid method" else none,
    roundTrip := fun _ => if i = 0 then .error "connection refused" else .ok (404, []) }

end Sample

/-! ## Reference definitions, written from the specification -/

/-- The reference definition of path resolution: every node resolves the empty
segment list; a mapping resolves `s :: rest` when `s` is `*` and some value
of the mapping resolves `rest`, or when `s` is not `*`, the mapping has key
`s` and its value resolves `rest`; a sequence resolves `s :: rest` only when
`s` is `*` and some element resolves `rest`; scalars and null resolve no
non-empty list. -/
inductive Resolves : JVal → List String → Prop
  | done (node : JVal) : Resolves node []
  | mapWildcard (m : List (String × JVal)) (k : String) (v : JVal) (rest : List String) :
      (k, v) ∈ m → Resolves v rest → Resolves (.obj m) ("*" :: rest)
  | mapKey (m : List (String × JVal)) (s : String) (v : JVal) (rest : List String) :
      s ≠ "*" → GoMap.get m s = some v → Resolves v rest → Resolves (.obj m) (s :: rest)
  | seqWildcard (xs : List JVal) (x : JVal) (rest : List String) :
      x ∈ xs → Resolves x rest → Resolves (.arr xs) ("*" :: rest)

mutual
/-- The key `b` is a key of this mapping or of a mapping reachable from it
through nested mappings. -/
def hasKeyDeep (b : String) : List (String × JVal) → Bool
  | [] => false
  | (k, v) :: rest => decide (k = b) || hasKeyDeepValue b v || hasKeyDeep b rest
/-- The key `b` is reachable below this value, which it is only through a
mapping. -/
def hasKeyDeepValue (b : String) : JVal → Bool
  | .obj m => hasKeyDeep b m
  | _ => false
end

/-- The value is a mapping. -/
def JVal.isObj : JVal → Bool
  | .obj _ => true
  | _ => false

/-- The node reached from `node` by following every segment through nested
mappings, if there is one. -/
def nodeAt (node : JVal) : List String → Option JVal
  | [] => some node
  | s :: rest =>
    match node with
    | .obj m =>
      match GoMap.get m s with
      | some v => nodeAt v rest
      | none => none
    | _ => none

/-- The reference definition of extraction: the string at the full path, and
the empty string when a segment is missing or the node there is not a string. -/
def extractAtPath (data : JMap) (fieldPath : String) : String :=
  match nodeAt (.obj data) (strings.Split fieldPath '.') with
  | some (.str s) => s
  | _ => ""

mutual
/-- The tree with `f` applied to every string leaf; keys, sequence lengths
and the other scalars are kept. -/
def JVal.mapStrings (f : String → String) : JVal → JVal
  | .str s => .str (f s)
  | .arr xs => .arr (mapStringsItems f xs)
  | .obj m => .obj (mapStringsFields f m)
  | v => v
/-- `mapStrings` on the elements of a sequence. -/
def mapStringsItems (f : String → String) : List JVal → List JVal
  | [] => []
  | x :: xs => JVal.mapStrings f x :: mapStringsItems f xs
/-- `mapStrings` on the values of a mapping. -/
def mapStringsFields (f : String → String) : List (String × JVal) → List (String × JVal)
  | [] => []
  | (k, v) :: rest => (k, JVal.mapStrings f v) :: mapStringsFields f rest
end

mutual
/-- The string leaves of a tree. -/
def JVal.strings : JVal → List String
  | .str s => [s]
  | .arr xs => stringsItems xs
  | .obj m => stringsFields m
  | _ => []
/-- The string leaves of the elements of a sequence. -/
def stringsItems : List JVal → List String
  | [] => []
  | x :: xs => JVal.strings x ++ stringsItems xs
/-- The string leaves of the values of a mapping. -/
def stringsFields : List (String × JVal) → List String
  | [] => []
  | (_, v) :: rest => JVal.strings v ++ stringsFields rest
end

/-- The token `$key` occurs in the string. -/
def hasToken (s key : String) : Prop :=
  ("$" ++ key).data <:+: s.data

/-- The two maps hold deeply equal values under the key, or neither has it. -/
def agreeAt (a b : JMap) (key : String) : Bool :=
  match GoMap.get a key, GoMap.get b key with
  | none, none => true
  | some x, some y => DeepEqual x y
  | _, _ => false

/-- The tree with every string leaf blanked: what is left is the shape of the
tree (its mapping keys, its sequences with their lengths and order) and its
numbers, booleans and nulls. -/
def JVal.skeleton (v : JVal) : JVal := v.mapStrings (fun _ => "")

/-! ## Accesses to the shared state, in program order -/

/-- What one call does to the state shared between goroutines. -/
inductive Event where
  /-- The call `mu.Lock()`. -/
  | lock : Event
  /-- The call `mu.Unlock()`. -/
  | unlock : Event
  /-- A `range` over `capturedValues` (`validator.go` line 137). -/
  | readStore : Event
  /-- The assignment `capturedValues[field] = value` (`validator.go` line 26). -/
  | writeStore (field : String) : Event
  /-- The assignment `dependencies[test.ID] = actualBody` (`runner.go` line 89). -/
  | writeDependencies (id : String) : Event
  /-- The append to `*results` (`runner.go` line 55). -/
  | appendResult : Event
  deriving DecidableEq

/-- The store accesses of `AssertResponse`: none when an ignore path is missing,
otherwise one write per capture path with a non-empty extraction. -/
def assertResponseEvents (actualBody : JMap) (ignoreFields captureFields : List String) :
    List Event :=
  match ignoreFields.find? (fun field => !fieldExists actualBody field) with
  | some _ => []
  | none =>
    captureFields.filterMap (fun field =>
      if extractField actualBody field ≠ "" then some (Event.writeStore field) else none)

/-- The events of a call of `ExecuteTest`, branch by branch as in `ExecuteTest`:
one store read per string leaf of the payload (line 62), one per header
(line 72), the guarded write to `dependencies` (lines 87-91), then the
accesses of `AssertResponse` (line 106). -/
def executeTestEvents (env : Env) (test : TestCase) (payload : JVal)
    (expected : ExpectedResponse) (w : World) : List Event :=
  let payloadReads := payload.strings.map (fun _ => Event.readStore)
  match env.newRequest test.Method test.URL with
  | some _ => payloadReads
  | none =>
    let headerReads := test.Headers.map (fun _ => Event.readStore)
    match env.roundTrip (buildRequest env test payload w) with
    | .error _ => payloadReads ++ headerReads
    | .ok (statusCode, actualBody) =>
      let guarded :=
        if test.ID ≠ "" then [Event.lock, Event.writeDependencies test.ID, Event.unlock]
        else []
      if statusCode ≠ expected.Status then payloadReads ++ headerReads ++ guarded
      else
        payloadReads ++ headerReads ++ guarded ++
          assertResponseEvents actualBody expected.Ignore test.Capture

/-- The events of one iteration of the loop of `executeMultiplePayloads`: the
call of `ExecuteTest`, then the guarded append of the result (lines 52-56). -/
def payloadEvents (env : Env) (test : TestCase) (payload : JVal)
    (expected : ExpectedResponse) (w : World) : List Event :=
  executeTestEvents env test payload expected w ++
    [Event.lock, Event.appendResult, Event.unlock]

/-- Every access to the Substitution Store in the event list happens with the
lock held; `held` tells whether it is held at the start. -/
def storeAccessesLocked : Bool → List Event → Bool
  | _, [] => true
  | _, Event.lock :: rest => storeAccessesLocked true rest
  | _, Event.unlock :: rest => storeAccessesLocked false rest
  | held, Event.readStore :: rest => held && storeAccessesLocked held rest
  | held, Event.writeStore _ :: rest => held && storeAccessesLocked held rest
  | held, _ :: rest => storeAccessesLocked held rest

/-- Every write to `dependencies` and every append to the results in the event
list happens with the lock held. -/
def guardedWritesLocked : Bool → List Event → Bool
  | _, [] => true
  | _, Event.lock :: rest => guardedWritesLocked true rest
  | _, Event.unlock :: rest => guardedWritesLocked false rest
  | held, Event.writeDependencies _ :: rest => held && guardedWritesLocked held rest
  | held, Event.appendResult :: rest => held && guardedWritesLocked held rest
  | held, _ :: rest => guardedWritesLocked held rest

/-! ## Tokenized strings -/

/-- The characters are made of characters other than `$` and of tokens `$key`
of the listed keys: every `$` begins the token of a key. -/
inductive Tokenized (keys : List String) : List Char → Prop
  | done : Tokenized keys []
  | text (c : Char) (cs : List Char) : c ≠ '$' → Tokenized keys cs → Tokenized keys (c :: cs)
  | token (key : String) (cs : List Char) :
      key ∈ keys → Tokenized keys cs → Tokenized keys ('$' :: key.data ++ cs)

/-- A piece of a tokenized string: a character, or the token of a key. -/
inductive Piece where
  | char (c : Char) : Piece
  | token (key : String) : Piece

/-- The characters of a piece as written in the string. -/
def Piece.chars : Piece → List Char
  | .char c => [c]
  | .token key => '$' :: key.data

/-- The string written by a list of pieces. -/
def Piece.flatten (ps : List Piece) : List Char := ps.flatMap Piece.chars

/-- The piece after the replacement of the token of `g` by `w`. -/
def Piece.expand (g w : String) : Piece → List Piece
  | .char c => [.char c]
  | .token key => if key = g then w.data.map Piece.char else [.token key]

/-- The characters a piece stands for once the token of every key of the
store is replaced by the value of the key. -/
def Piece.resolve (store : Store) : Piece → List Char
  | .char c => [c]
  | .token key =>
    match GoMap.get store key with
    | some w => w.data
    | none => '$' :: key.data

/-- A character piece is not `$` and a token piece is the token of a listed key. -/
def Piece.ok (keys : List String) : Piece → Prop
  | .char c => c ≠ '$'
  | .token key => key ∈ keys

/-- The pieces after the replacements of the visited entries, one after the
other. -/
def Piece.expandAll (visited : List (String × String)) (ps : List Piece) : List Piece :=
  visited.foldl (fun ps kv => ps.flatMap (Piece.expand kv.1 kv.2)) ps

/-! ## Structural equality is decidable -/

mutual
theorem JVal.beq_iff : ∀ (a b : JVal), JVal.beq a b = true ↔ a = b
  | .null, b => by cases b <;> simp [JVal.beq]
  | .bool x, b => by cases b <;> simp [JVal.beq]
  | .num x, b => by cases b <;> simp [JVal.beq]
  | .str x, b => by cases b <;> simp [JVal.beq]
  | .arr xs, b => by
    cases b <;> simp [JVal.beq]
    exact beqSlice_iff xs _
  | .obj m, b => by
    cases b <;> simp [JVal.beq]
    exact beqFields_iff m _
theorem beqSlice_iff : ∀ (xs ys : List JVal), beqSlice xs ys = true ↔ xs = ys
  | [], ys => by cases ys <;> simp [beqSlice]
  | x :: xs, ys => by
    cases ys with
    | nil => simp [beqSlice]
    | cons y ys => simp [beqSlice, JVal.beq_iff x y, beqSlice_iff xs ys]
theorem beqFields_iff : ∀ (m n : List (String × JVal)), beqFields m n = true ↔ m = n
  | [], n => by cases n <;> simp [beqFields]
  | (k, v) :: m, n => by
    cases n with
    | nil => simp [beqFields]
    | cons kv n =>
      obtain ⟨k2, v2⟩ := kv
      simp [beqFields, JVal.beq_iff v v2, beqFields_iff m n, and_assoc]
end

instance : DecidableEq JVal := fun a b =>
  decidable_of_iff (JVal.beq a b = true) (JVal.beq_iff a b)

deriving instance DecidableEq for ExpectedResponse, TestResult, Request, World, RunState

/-! ## The store as a Go map -/

theorem GoMap.get_set_same {β : Type} (m : List (String × β)) (key : String) (value : β) :
    GoMap.get (GoMap.set m key value) key = some value := by
  induction m with
  | nil => simp [GoMap.set, GoMap.get]
  | cons kv rest ih =>
    obtain ⟨k, v⟩ := kv
    by_cases hk : k = key
    · simp [GoMap.set, GoMap.get, hk]
    · simp [GoMap.set, GoMap.get, hk, ih]

theorem GoMap.get_set_other {β : Type} (m : List (String × β)) (key other : String) (value : β)
    (hne : other ≠ key) : GoMap.get (GoMap.set m key value) other = GoMap.get m other := by
  induction m with
  | nil => simp [GoMap.set, GoMap.get, Ne.symm hne]
  | cons kv rest ih =>
    obtain ⟨k, v⟩ := kv
    by_cases hk : k = key
    · subst hk
      simp [GoMap.set, GoMap.get, Ne.symm hne]
    · by_cases hko : k = other
      · subst hko
        simp [GoMap.set, GoMap.get, hk]
      · simp [GoMap.set, GoMap.get, hk, hko, ih]

/-- What the capture loop leaves under a key. -/
theorem captureLoop_get (actualBody : JMap) (captureFields : List String) :
    ∀ (store : Store) (key : String),
      GoMap.get (captureLoop actualBody captureFields store) key =
        if key ∈ captureFields ∧ extractField actualBody key ≠ "" then
          some (extractField actualBody key)
        else GoMap.get store key := by
  induction captureFields with
  | nil => intro store key; simp [captureLoop]
  | cons field rest ih =>
    intro store key
    by_cases hv : extractField actualBody field = ""
    · simp only [captureLoop, hv, ne_eq, not_true_eq_false, if_false, ih, List.mem_cons]
      by_cases hk : key = field
      · subst hk; simp [hv]
      · simp [hk]
    · simp only [captureLoop, ne_eq, hv, not_false_eq_true, if_true, ih, List.mem_cons]
      by_cases hk : key = field
      · subst hk
        simp [hv, GoMap.get_set_same]
      · simp [hk, GoMap.get_set_other _ _ _ _ hk]

/-- The first element of a list that satisfies a test, with the elements before it. -/
theorem find_first {α : Type} (P : α → Bool) :
    ∀ (l : List α), (∃ x ∈ l, P x = true) →
      ∃ pre p post, l = pre ++ p :: post ∧ (∀ q ∈ pre, P q = false) ∧ P p = true ∧
        l.find? P = some p := by
  intro l
  induction l with
  | nil => intro h; obtain ⟨x, hx, _⟩ := h; cases hx
  | cons a rest ih =>
    intro h
    by_cases ha : P a = true
    · exact ⟨[], a, rest, rfl, by simp, ha, by simp [List.find?, ha]⟩
    · have hrest : ∃ x ∈ rest, P x = true := by
        obtain ⟨x, hx, hpx⟩ := h
        rcases List.mem_cons.mp hx with rfl | hx
        · exact absurd hpx ha
        · exact ⟨x, hx, hpx⟩
      obtain ⟨pre, p, post, hl, hpre, hp, hfind⟩ := ih hrest
      refine ⟨a :: pre, p, post, by simp [hl], ?_, hp, ?_⟩
      · intro q hq
        rcases List.mem_cons.mp hq with rfl | hq
        · simpa using ha
        · exact hpre q hq
      · simp only [Bool.not_eq_true] at ha
        simp [List.find?, ha, hfind]

/-- C2. When some ignore path does not resolve in the actual body, `AssertResponse`
returns false with the message naming the first such path in list order
(every path before it resolves), whatever the expected body and the capture
list are, and the Substitution Store is what it was before the call. -/
theorem assertResponse_ignore_path_missing (actualBody expectedBody : JMap)
    (ignoreFields captureFields : List String) (w : World)
    (h : ∃ p ∈ ignoreFields, fieldExists actualBody p = false) :
    ∃ pre p post, ignoreFields = pre ++ p :: post ∧
      (∀ q ∈ pre, fieldExists actualBody q = true) ∧ fieldExists actualBody p = false ∧
      (AssertResponse actualBody expectedBody ignoreFields captureFields w).1 =
        (false, "Ignored field '" ++ p ++ "' is missing in actual response") ∧
      (AssertResponse actualBody expectedBody ignoreFields captureFields w).2.capturedValues =
        w.capturedValues := by
  have h' : ∃ x ∈ ignoreFields, (fun field => !fieldExists actualBody field) x = true := by
    obtain ⟨p, hp, hf⟩ := h
    exact ⟨p, hp, by simp [hf]⟩
  obtain ⟨pre, p, post, hl, hpre, hp, hfind⟩ := find_first _ ignoreFields h'
  refine ⟨pre, p, post, hl, ?_, by simpa using hp, ?_, ?_⟩
  · intro q hq
    simpa using hpre q hq
  · simp [AssertResponse, hfind]
  · simp [AssertResponse, hfind, saveResponseToFile]

/-- C2 at the body `{"id":"7"}` with the ignore list `["id","ts","zz"]`: the
message names `ts`, and the store is unchanged although `id` is a capture
path. -/
theorem assertResponse_ignore_path_missing_witness :
    ∃ pre p post, ["id", "ts", "zz"] = pre ++ p :: post ∧
      (∀ q ∈ pre, fieldExists [("id", .str "7")] q = true) ∧
      fieldExists [("id", .str "7")] p = false ∧
      (AssertResponse [("id", .str "7")] [("id", .str "7")] ["id", "ts", "zz"] ["id"]
          ⟨[], []⟩).1 =
        (false, "Ignored field '" ++ p ++ "' is missing in actual response") ∧
      (AssertResponse [("id", .str "7")] [("id", .str "7")] ["id", "ts", "zz"] ["id"]
          ⟨[], []⟩).2.capturedValues = [] :=
  assertResponse_ignore_path_missing [("id", .str "7")] [("id", .str "7")] ["id", "ts", "zz"]
    ["id"] ⟨[], []⟩ ⟨"ts", by decide, by decide⟩

/-- The request is dispatched exactly when `http.NewRequest` succeeds, and it
is the one built from the substituted payload and headers. -/
theorem executeTest_request (env : Env) (test : TestCase) (payload : JVal)
    (expected : ExpectedResponse) (dependencies : List (String × JMap)) (w : World)
    (req : Request)
    (hreq : (ExecuteTest env test payload expected dependencies w).request = some req) :
    env.newRequest test.Method test.URL = none ∧ req = buildRequest env test payload w := by
  unfold ExecuteTest at hreq
  cases hnew : env.newRequest test.Method test.URL with
  | some err => simp [hnew] at hreq
  | none =>
    refine ⟨rfl, ?_⟩
    simp only [hnew] at hreq
    split at hreq
    · simpa using hreq.symm
    · split at hreq <;> simpa using hreq.symm

/-- Every call of `AssertResponse` writes one snapshot. -/
theorem assertResponse_writes_snapshot (actualBody expectedBody : JMap)
    (ignoreFields captureFields : List String) (w : World) :
    (AssertResponse actualBody expectedBody ignoreFields captureFields w).2.files.length =
      w.files.length + 1 := by
  unfold AssertResponse
  split
  · simp [saveResponseToFile]
  · simp only [saveResponseToFile]
    split <;> simp

/-- C3. When the server answers the dispatched request with a status code `A`
that differs from the expected status `E`, `ExecuteTest` yields a failed
result whose error is "Expected status E but got A" (decimal) and whose
response is the actual body, and leaves the world as it was: the Substitution
Store is unchanged and no snapshot is written, so the world is not the one any
call of the assertion engine would leave, whatever the capture list and the
body are. -/
theorem executeTest_status_mismatch (env : Env) (test : TestCase) (payload : JVal)
    (expected : ExpectedResponse) (dependencies : List (String × JMap)) (w : World)
    (req : Request) (A : Int) (body : JMap)
    (hreq : (ExecuteTest env test payload expected dependencies w).request = some req)
    (hresp : env.roundTrip req = .ok (A, body))
    (hne : A ≠ expected.Status) :
    (ExecuteTest env test payload expected dependencies w).result =
        { TestID := test.ID, Name := test.Name, Success := false,
          Error := "Expected status " ++ toString expected.Status ++ " but got " ++ toString A,
          Response := body } ∧
      (ExecuteTest env test payload expected dependencies w).world = w ∧
      ∀ actualBody expectedBody ignoreFields captureFields,
        (ExecuteTest env test payload expected dependencies w).world ≠
          (AssertResponse actualBody expectedBody ignoreFields captureFields w).2 := by
  obtain ⟨hnew, rfl⟩ := executeTest_request env test payload expected dependencies w req hreq
  have hw : (ExecuteTest env test payload expected dependencies w).world = w := by
    unfold ExecuteTest
    simp [hnew, hresp, hne]
  refine ⟨?_, hw, ?_⟩
  · unfold ExecuteTest
    simp [hnew, hresp, hne]
  · intro a e i c hEq
    have hlen := assertResponse_writes_snapshot a e i c w
    rw [← hEq, hw] at hlen
    omega

/-- C3 at expected status 200 and actual status 404, with a body that holds the
capture path `token`: the message cites both codes and the store stays empty. -/
theorem executeTest_status_mismatch_witness :
    (ExecuteTest (Sample.server 404 [("token", .str "abc123")]) Sample.testA
        (.obj [("user", .str "u")]) ⟨200, [("token", .str "abc123")], []⟩ []
        Sample.emptyWorld).result =
        { TestID := "A", Name := "login", Success := false,
          Error := "Expected status 200 but got 404",
          Response := [("token", .str "abc123")] } ∧
      (ExecuteTest (Sample.server 404 [("token", .str "abc123")]) Sample.testA
        (.obj [("user", .str "u")]) ⟨200, [("token", .str "abc123")], []⟩ []
        Sample.emptyWorld).world.capturedValues = [] :=
  have h := executeTest_status_mismatch (Sample.server 404 [("token", .str "abc123")])
    Sample.testA (.obj [("user", .str "u")]) ⟨200, [("token", .str "abc123")], []⟩ []
    Sample.emptyWorld
    (buildRequest (Sample.server 404 [("token", .str "abc123")]) Sample.testA
      (.obj [("user", .str "u")]) Sample.emptyWorld)
    404 [("token", .str "abc123")] rfl rfl (by decide)
  ⟨h.1, by rw [h.2.1]; rfl⟩

/-- C4. When every ignore path resolves in the actual body, then after
`AssertResponse`, whatever the expected body is (so whether or not the
comparison passes): a capture path whose extraction is a non-empty string is
mapped by the store to that string, a capture path whose extraction is empty
keeps the entry it had, and a key outside the capture list keeps the entry it
had. -/
theorem assertResponse_capture_frame (actualBody expectedBody : JMap)
    (ignoreFields captureFields : List String) (w : World)
    (h : ∀ p ∈ ignoreFields, fieldExists actualBody p = true) :
    (∀ p ∈ captureFields, extractField actualBody p ≠ "" →
        GoMap.get (AssertResponse actualBody expectedBody ignoreFields captureFields
          w).2.capturedValues p = some (extractField actualBody p)) ∧
      (∀ p ∈ captureFields, extractField actualBody p = "" →
        GoMap.get (AssertResponse actualBody expectedBody ignoreFields captureFields
          w).2.capturedValues p = GoMap.get w.capturedValues p) ∧
      (∀ k, k ∉ captureFields →
        GoMap.get (AssertResponse actualBody expectedBody ignoreFields captureFields
          w).2.capturedValues k = GoMap.get w.capturedValues k) := by
  have hfind : ignoreFields.find? (fun field => !fieldExists actualBody field) = none := by
    simp only [List.find?_eq_none]
    intro x hx
    simp [h x hx]
  have hcv : (AssertResponse actualBody expectedBody ignoreFields captureFields
      w).2.capturedValues = captureLoop actualBody captureFields w.capturedValues := by
    unfold AssertResponse
    simp only [hfind, saveResponseToFile]
    split <;> rfl
  rw [hcv]
  refine ⟨?_, ?_, ?_⟩
  · intro p hp hv
    rw [captureLoop_get]
    simp [hp, hv]
  · intro p _ hv
    rw [captureLoop_get]
    simp [hv]
  · intro k hk
    rw [captureLoop_get]
    simp [hk]

/-- C4 at a failing comparison: `token` is overwritten, `missing` and `n` (a
number) keep their entries, and so does the key `other`. -/
theorem assertResponse_capture_frame_witness :
    (∀ p ∈ ["token", "missing", "n"],
        extractField [("token", .str "abc123"), ("n", .num 5)] p ≠ "" →
        GoMap.get (AssertResponse [("token", .str "abc123"), ("n", .num 5)] [] []
          ["token", "missing", "n"]
          ⟨[("token", "old"), ("n", "kept"), ("other", "x")], []⟩).2.capturedValues p =
          some (extractField [("token", .str "abc123"), ("n", .num 5)] p)) ∧
      (∀ p ∈ ["token", "missing", "n"],
        extractField [("token", .str "abc123"), ("n", .num 5)] p = "" →
        GoMap.get (AssertResponse [("token", .str "abc123"), ("n", .num 5)] [] []
          ["token", "missing", "n"]
          ⟨[("token", "old"), ("n", "kept"), ("other", "x")], []⟩).2.capturedValues p =
          GoMap.get [("token", "old"), ("n", "kept"), ("other", "x")] p) ∧
      (∀ k, k ∉ ["token", "missing", "n"] →
        GoMap.get (AssertResponse [("token", .str "abc123"), ("n", .num 5)] [] []
          ["token", "missing", "n"]
          ⟨[("token", "old"), ("n", "kept"), ("other", "x")], []⟩).2.capturedValues k =
          GoMap.get [("token", "old"), ("n", "kept"), ("other", "x")] k) :=
  assertResponse_capture_frame [("token", .str "abc123"), ("n", .num 5)] [] []
    ["token", "missing", "n"] ⟨[("token", "old"), ("n", "kept"), ("other", "x")], []⟩
    (by simp)

/-! ## Existence check -/

/-- The existence check on a segment list agrees with the reference definition
of resolution. -/
theorem checkFieldExists_iff_resolves (keys : List String) :
    ∀ data : JVal, checkFieldExists data keys = true ↔ Resolves data keys := by
  induction keys with
  | nil =>
    intro data
    simp only [checkFieldExists, true_iff]
    exact Resolves.done data
  | cons s rest ih =>
    intro data
    constructor
    · intro h
      cases data with
      | obj m =>
        by_cases hs : s = "*"
        · subst hs
          simp only [checkFieldExists, if_true, List.any_eq_true] at h
          obtain ⟨⟨k, v⟩, hmem, hv⟩ := h
          exact Resolves.mapWildcard m k v rest hmem ((ih v).mp hv)
        · simp only [checkFieldExists, hs, if_false] at h
          cases hget : GoMap.get m s with
          | none => simp [hget] at h
          | some v =>
            simp only [hget] at h
            exact Resolves.mapKey m s v rest hs hget ((ih v).mp h)
      | arr xs =>
        by_cases hs : s = "*"
        · subst hs
          simp only [checkFieldExists, if_true, List.any_eq_true] at h
          obtain ⟨x, hmem, hx⟩ := h
          exact Resolves.seqWildcard xs x rest hmem ((ih x).mp hx)
        · simp [checkFieldExists, hs] at h
      | null => simp [checkFieldExists] at h
      | bool b => simp [checkFieldExists] at h
      | num n => simp [checkFieldExists] at h
      | str t => simp [checkFieldExists] at h
    · intro h
      cases h with
      | mapWildcard m k v _ hmem hv =>
        simp only [checkFieldExists, if_true, List.any_eq_true]
        exact ⟨(k, v), hmem, (ih v).mpr hv⟩
      | mapKey m _ v _ hs hget hv =>
        simp only [checkFieldExists, hs, if_false, hget]
        exact (ih v).mpr hv
      | seqWildcard xs x _ hmem hx =>
        simp only [checkFieldExists, if_true, List.any_eq_true]
        exact ⟨x, hmem, (ih x).mpr hx⟩

/-- C9. `fieldExists` is true exactly when the path, split on `.`, resolves in
the body under the reference definition `Resolves`. -/
theorem fieldExists_iff_resolves (data : JMap) (path : String) :
    fieldExists data path = true ↔ Resolves (.obj data) (strings.Split path '.') :=
  checkFieldExists_iff_resolves (strings.Split path '.') (.obj data)

/-! ## Field removal -/

theorem removeIgnoredFields_nil (ignoreFields : List String) :
    removeIgnoredFields [] ignoreFields = [] := by
  simp [removeIgnoredFields]

theorem removeIgnoredFields_cons (key : String) (value : JVal) (rest : List (String × JVal))
    (ignoreFields : List String) :
    removeIgnoredFields ((key, value) :: rest) ignoreFields =
      if isFieldIgnored key ignoreFields then removeIgnoredFields rest ignoreFields
      else (key, removeIgnoredValue value ignoreFields) ::
        removeIgnoredFields rest ignoreFields := by
  simp [removeIgnoredFields]

/-- The entries of the cleaned map: the kept entries, each with its value cleaned. -/
theorem mem_removeIgnoredFields (ignoreFields : List String) (k : String) (v : JVal) :
    ∀ data : List (String × JVal), (k, v) ∈ removeIgnoredFields data ignoreFields ↔
      isFieldIgnored k ignoreFields = false ∧
        ∃ v0, (k, v0) ∈ data ∧ v = removeIgnoredValue v0 ignoreFields := by
  intro data
  induction data with
  | nil => simp [removeIgnoredFields_nil]
  | cons kv rest ih =>
    obtain ⟨key, value⟩ := kv
    rw [removeIgnoredFields_cons]
    by_cases hig : isFieldIgnored key ignoreFields = true
    · simp only [hig, if_true, ih, List.mem_cons, Prod.mk.injEq]
      constructor
      · rintro ⟨h1, v0, h2, h3⟩
        exact ⟨h1, v0, Or.inr h2, h3⟩
      · rintro ⟨h1, v0, h2 | h2, h3⟩
        · obtain ⟨rfl, rfl⟩ := h2
          rw [hig] at h1
          cases h1
        · exact ⟨h1, v0, h2, h3⟩
    · simp only [Bool.not_eq_true] at hig
      simp only [hig, Bool.false_eq_true, if_false, List.mem_cons, Prod.mk.injEq, ih]
      constructor
      · rintro (⟨hk, hv⟩ | ⟨h1, v0, h2, h3⟩)
        · subst hk
          exact ⟨hig, value, Or.inl ⟨rfl, rfl⟩, hv⟩
        · exact ⟨h1, v0, Or.inr h2, h3⟩
      · rintro ⟨h1, v0, h2 | h2, h3⟩
        · obtain ⟨hk, hv⟩ := h2
          subst hk hv
          exact Or.inl ⟨rfl, h3⟩
        · exact Or.inr ⟨h1, v0, h2, h3⟩

/-- Lookup in the cleaned map. -/
theorem get_removeIgnoredFields (ignoreFields : List String) (k : String) :
    ∀ data : List (String × JVal), GoMap.get (removeIgnoredFields data ignoreFields) k =
      if isFieldIgnored k ignoreFields then none
      else (GoMap.get data k).map (fun v => removeIgnoredValue v ignoreFields) := by
  intro data
  induction data with
  | nil => simp [removeIgnoredFields_nil, GoMap.get]
  | cons kv rest ih =>
    obtain ⟨key, value⟩ := kv
    rw [removeIgnoredFields_cons]
    by_cases hig : isFieldIgnored key ignoreFields = true
    · simp only [hig, if_true, ih, GoMap.get]
      by_cases hk : key = k
      · subst hk; simp [hig]
      · simp [hk]
    · simp only [hig, if_false, GoMap.get, ih]
      by_cases hk : key = k
      · subst hk; simp [hig]
      · simp [hk]

/-- The keys of the cleaned map are the keys that are not ignored. -/
theorem keys_removeIgnoredFields (ignoreFields : List String) :
    ∀ data : List (String × JVal), GoMap.keys (removeIgnoredFields data ignoreFields) =
      (GoMap.keys data).filter (fun k => !isFieldIgnored k ignoreFields) := by
  intro data
  induction data with
  | nil => simp [removeIgnoredFields_nil, GoMap.keys]
  | cons kv rest ih =>
    obtain ⟨key, value⟩ := kv
    rw [removeIgnoredFields_cons]
    simp only [GoMap.keys] at ih
    by_cases hig : isFieldIgnored key ignoreFields = true
    · simp [hig, GoMap.keys, ih]
    · simp [hig, GoMap.keys, ih]

/-- A cleaned value that is not a mapping is the original value. -/
theorem removeIgnoredValue_of_not_obj (v0 : JVal) (ignoreFields : List String)
    (h : JVal.isObj (removeIgnoredValue v0 ignoreFields) = false) :
    removeIgnoredValue v0 ignoreFields = v0 := by
  cases v0 <;> simp_all [removeIgnoredValue, JVal.isObj]

theorem removeIgnoredValue_eq_self (v : JVal) (ignoreFields : List String)
    (h : JVal.isObj v = false) : removeIgnoredValue v ignoreFields = v := by
  cases v <;> simp_all [removeIgnoredValue, JVal.isObj]

mutual
/-- An ignored key is nowhere in the cleaned map. -/
theorem hasKeyDeep_removeIgnoredFields (b : String) (ignoreFields : List String)
    (hb : isFieldIgnored b ignoreFields = true) :
    ∀ data : List (String × JVal), hasKeyDeep b (removeIgnoredFields data ignoreFields) = false
  | [] => by simp [removeIgnoredFields_nil, hasKeyDeep]
  | (key, value) :: rest => by
    rw [removeIgnoredFields_cons]
    have ihrest := hasKeyDeep_removeIgnoredFields b ignoreFields hb rest
    by_cases hig : isFieldIgnored key ignoreFields = true
    · simp [hig, ihrest]
    · have hne : key ≠ b := by
        rintro rfl
        exact hig hb
      have ihv := hasKeyDeepValue_removeIgnoredValue b ignoreFields hb value
      simp [hig, hasKeyDeep, hne, ihrest, ihv]
/-- An ignored key is nowhere below a cleaned value. -/
theorem hasKeyDeepValue_removeIgnoredValue (b : String) (ignoreFields : List String)
    (hb : isFieldIgnored b ignoreFields = true) :
    ∀ value : JVal, hasKeyDeepValue b (removeIgnoredValue value ignoreFields) = false
  | .obj m => by
    have ih := hasKeyDeep_removeIgnoredFields b ignoreFields hb m
    simp [removeIgnoredValue, hasKeyDeepValue, ih]
  | .null => by simp [removeIgnoredValue, hasKeyDeepValue]
  | .bool _ => by simp [removeIgnoredValue, hasKeyDeepValue]
  | .num _ => by simp [removeIgnoredValue, hasKeyDeepValue]
  | .str _ => by simp [removeIgnoredValue, hasKeyDeepValue]
  | .arr _ => by simp [removeIgnoredValue, hasKeyDeepValue]
end

theorem isFieldIgnored_iff (field : String) (ignoreFields : List String) :
    isFieldIgnored field ignoreFields = true ↔
      ∃ ignored ∈ ignoreFields, ignored = field ∨
        strings.HasSuffix ignored ("." ++ field) = true ∨
        strings.HasSuffix ignored ".*" = true := by
  simp [isFieldIgnored, List.any_eq_true, or_assoc]

theorem hasSuffix_append (s suffix : String) : strings.HasSuffix (s ++ suffix) suffix = true := by
  simp [strings.HasSuffix]

/-- C6. When the ignore list holds a path ending in `.b`, the cleaned tree has
no key `b` in any mapping reachable from the root through nested mappings,
whatever the parent of the key is: the match is on the key alone. -/
theorem removeIgnoredFields_drops_key_of_suffix (data : JMap) (ignoreFields : List String)
    (b : String) (h : ∃ p ∈ ignoreFields, strings.HasSuffix p ("." ++ b) = true) :
    hasKeyDeep b (removeIgnoredFields data ignoreFields) = false := by
  apply hasKeyDeep_removeIgnoredFields
  obtain ⟨p, hp, hs⟩ := h
  exact (isFieldIgnored_iff b ignoreFields).mpr ⟨p, hp, Or.inr (Or.inl hs)⟩

/-- C6 on a tree with `x.b`, `y.b` and a top-level `b`, cleaned with the ignore
path `a.b`: no `b` is left although the tree has no key `a`. -/
theorem removeIgnoredFields_drops_key_of_suffix_witness :
    hasKeyDeep "b" (removeIgnoredFields
      [("x", .obj [("b", .num 1), ("c", .num 2)]), ("y", .obj [("b", .num 3)]),
        ("b", .num 4)] ["a.b"]) = false :=
  removeIgnoredFields_drops_key_of_suffix _ ["a.b"] "b" ⟨"a.b", by simp, by decide⟩

/-- C7. For a tree with a mapping under the key `parent`, the tree cleaned with
the wildcard ignore path `parent.*` holds, in no mapping reachable through
nested mappings, a key that was directly under `parent`. -/
theorem removeIgnoredFields_wildcard_clears_parent (data : JMap) (parent : String) (m : JMap)
    (_h : GoMap.get data parent = some (.obj m)) :
    ∀ k ∈ GoMap.keys m,
      hasKeyDeep k (removeIgnoredFields data [parent ++ ".*"]) = false := by
  intro k _
  apply hasKeyDeep_removeIgnoredFields
  exact (isFieldIgnored_iff k _).mpr
    ⟨parent ++ ".*", by simp, Or.inr (Or.inr (hasSuffix_append parent ".*"))⟩

/-- C7 on `{"parent":{"a":1,"b":{"a":2}},"a":3}`: neither `a` nor `b`, the keys
under `parent`, is left. -/
theorem removeIgnoredFields_wildcard_clears_parent_witness :
    hasKeyDeep "a" (removeIgnoredFields
        [("parent", .obj [("a", .num 1), ("b", .obj [("a", .num 2)])]), ("a", .num 3)]
        ["parent" ++ ".*"]) = false ∧
      hasKeyDeep "b" (removeIgnoredFields
        [("parent", .obj [("a", .num 1), ("b", .obj [("a", .num 2)])]), ("a", .num 3)]
        ["parent" ++ ".*"]) = false :=
  have h := removeIgnoredFields_wildcard_clears_parent
    [("parent", .obj [("a", .num 1), ("b", .obj [("a", .num 2)])]), ("a", .num 3)]
    "parent" [("a", .num 1), ("b", .obj [("a", .num 2)])] (by decide)
  ⟨h "a" (by decide), h "b" (by decide)⟩

/-- C8. Field removal does not look inside a value that is not a mapping: an
entry of the cleaned map whose value is a sequence or a scalar is an entry of
the original map with the very same value, and every such entry under a key
that is not ignored is kept.  In particular a sequence under `items` comes
out of the removal of `items.*.ts` unchanged, with every `ts` of its
elements, while the existence check resolves that path through the elements
of the sequence. -/
theorem removeIgnoredFields_keeps_non_mappings (data : JMap) (ignoreFields : List String) :
    (∀ k v, JVal.isObj v = false →
        ((k, v) ∈ removeIgnoredFields data ignoreFields ↔
          (k, v) ∈ data ∧ isFieldIgnored k ignoreFields = false)) ∧
      (∀ xs : List JVal, GoMap.get data "items" = some (.arr xs) →
        GoMap.get (removeIgnoredFields data ["items.*.ts"]) "items" = some (.arr xs) ∧
        ((∃ m v, JVal.obj m ∈ xs ∧ GoMap.get m "ts" = some v) →
          fieldExists data "items.*.ts" = true)) := by
  constructor
  · intro k v hv
    rw [mem_removeIgnoredFields]
    constructor
    · rintro ⟨hig, v0, hmem, heq⟩
      have hv0 : removeIgnoredValue v0 ignoreFields = v0 :=
        removeIgnoredValue_of_not_obj v0 ignoreFields (heq ▸ hv)
      rw [hv0] at heq
      exact ⟨heq ▸ hmem, hig⟩
    · rintro ⟨hmem, hig⟩
      exact ⟨hig, v, hmem, (removeIgnoredValue_eq_self v ignoreFields hv).symm⟩
  · intro xs hget
    constructor
    · rw [get_removeIgnoredFields]
      have hig : isFieldIgnored "items" ["items.*.ts"] = false := by decide
      simp [hig, hget, removeIgnoredValue]
    · rintro ⟨m, v, hmem, hts⟩
      have hsplit : strings.Split "items.*.ts" '.' = ["items", "*", "ts"] := by decide
      unfold fieldExists
      rw [checkFieldExists_iff_resolves, hsplit]
      exact Resolves.mapKey data "items" (.arr xs) _ (by decide) hget
        (Resolves.seqWildcard xs (.obj m) _ hmem
          (Resolves.mapKey m "ts" v [] (by decide) hts (Resolves.done v)))

/-- C8 on `{"items":[{"ts":"x","id":1},{"ts":"y"}],"ts":"top"}`: the path
`items.*.ts` exists, and the sequence under `items` is kept with both `ts`. -/
theorem removeIgnoredFields_keeps_non_mappings_witness :
    GoMap.get (removeIgnoredFields
        [("items", .arr [.obj [("ts", .str "x"), ("id", .num 1)], .obj [("ts", .str "y")]]),
          ("ts", .str "top")] ["items.*.ts"]) "items" =
        some (.arr [.obj [("ts", .str "x"), ("id", .num 1)], .obj [("ts", .str "y")]]) ∧
      fieldExists
        [("items", .arr [.obj [("ts", .str "x"), ("id", .num 1)], .obj [("ts", .str "y")]]),
          ("ts", .str "top")] "items.*.ts" = true :=
  have h := (removeIgnoredFields_keeps_non_mappings
    [("items", .arr [.obj [("ts", .str "x"), ("id", .num 1)], .obj [("ts", .str "y")]]),
      ("ts", .str "top")] ["items.*.ts"]).2
    [.obj [("ts", .str "x"), ("id", .num 1)], .obj [("ts", .str "y")]] (by decide)
  ⟨h.1, h.2 ⟨[("ts", .str "y")], .str "y", by simp, by decide⟩⟩

/-! ## Extraction -/

theorem nodeAt_cons_obj (m : List (String × JVal)) (s : String) (rest : List String) :
    nodeAt (.obj m) (s :: rest) =
      match GoMap.get m s with
      | some v => nodeAt v rest
      | none => none := by
  simp [nodeAt]

/-- Where no proper initial part of the path leads to a string, the loop of
`extractField` returns what the reference definition returns. -/
theorem extractFieldLoop_eq_reference (keys : List String) :
    ∀ current : JMap,
      (∀ pre s, pre <+: keys → pre ≠ keys → nodeAt (.obj current) pre ≠ some (.str s)) →
      extractFieldLoop current keys =
        match nodeAt (.obj current) keys with
        | some (.str s) => s
        | _ => "" := by
  induction keys with
  | nil => intro current _; simp [extractFieldLoop, nodeAt]
  | cons key rest ih =>
    intro current h
    rw [nodeAt_cons_obj]
    cases hget : GoMap.get current key with
    | none => simp [extractFieldLoop, hget]
    | some v =>
      cases v with
      | str t =>
        cases rest with
        | nil => simp [extractFieldLoop, hget, nodeAt]
        | cons r rs =>
          exfalso
          apply h [key] t (by simp) (by simp)
          simp [nodeAt, hget]
      | obj m =>
        simp only [extractFieldLoop, hget]
        apply ih m
        intro pre s hpre hne hnode
        apply h (key :: pre) s
        · exact (List.prefix_cons_inj key).mpr hpre
        · simpa using hne
        · rw [nodeAt_cons_obj, hget]
          exact hnode
      | null => cases rest <;> simp [extractFieldLoop, hget, nodeAt]
      | bool b => cases rest <;> simp [extractFieldLoop, hget, nodeAt]
      | num n => cases rest <;> simp [extractFieldLoop, hget, nodeAt]
      | arr xs => cases rest <;> simp [extractFieldLoop, hget, nodeAt]

/-- C10. On the body `{"a":"x"}` and the path `a.b`, whose segment `b` is
missing (the path does not exist), `extractField` returns `"x"`, the string
found under the first segment, where the reference definition gives the
empty string. -/
theorem extractField_stops_at_first_string :
    extractField [("a", .str "x")] "a.b" = "x" ∧
      extractAtPath [("a", .str "x")] "a.b" = "" ∧
      fieldExists [("a", .str "x")] "a.b" = false := by
  decide

/-! ## Substitution -/

/-- Replacing an `old` that does not occur leaves the characters as they are. -/
theorem replaceChars_of_not_infix (old new : List Char) :
    ∀ cs : List Char, ¬ old <:+: cs → strings.replaceChars old new 0 cs = cs := by
  intro cs
  induction cs with
  | nil => intro _; simp [strings.replaceChars]
  | cons c cs ih =>
    intro h
    have hpre : old.isPrefixOf (c :: cs) = false := by
      cases hp : old.isPrefixOf (c :: cs) with
      | false => rfl
      | true =>
        exact absurd (List.IsPrefix.isInfix (List.isPrefixOf_iff_prefix.mp hp)) h
    have hcs : ¬ old <:+: cs := fun hin => h (List.infix_cons hin)
    simp [strings.replaceChars, hpre, ih hcs]

/-- `ReplaceAll` of a token that does not occur returns the string. -/
theorem replaceAll_of_no_token (s key value : String) (h : ¬ hasToken s key) :
    strings.ReplaceAll s ("$" ++ key) value = s := by
  unfold hasToken at h
  have hne : ("$" ++ key).data ≠ [] := by simp
  unfold strings.ReplaceAll
  rw [if_neg hne, replaceChars_of_not_infix _ _ _ h]

theorem replaceInString_nil (v : String) : replaceInString [] v = v := rfl

theorem replaceInString_cons (kv : String × String) (rest : List (String × String))
    (v : String) :
    replaceInString (kv :: rest) v =
      replaceInString rest (strings.ReplaceAll v ("$" ++ kv.1) kv.2) := rfl

/-- Visiting entries none of whose tokens occurs returns the string. -/
theorem replaceInString_of_no_token (visited : List (String × String)) (s : String)
    (h : ∀ kv ∈ visited, ¬ hasToken s kv.1) : replaceInString visited s = s := by
  induction visited with
  | nil => rfl
  | cons kv rest ih =>
    rw [replaceInString_cons, replaceAll_of_no_token s kv.1 kv.2 (h kv (by simp))]
    exact ih (fun kv' hkv' => h kv' (by simp [hkv']))

/-- Visiting a list of entries with distinct keys in which `f` is bound to `v`
and no other key has its token in the string, before or after the replacement
of `$f`, replaces `$f` by `v` and does nothing else. -/
theorem replaceInString_single_token (f v s : String) :
    ∀ visited : List (String × String), (GoMap.keys visited).Nodup → (f, v) ∈ visited →
      (∀ kv ∈ visited, kv.1 ≠ f →
        ¬ hasToken s kv.1 ∧ ¬ hasToken (strings.ReplaceAll s ("$" ++ f) v) kv.1) →
      replaceInString visited s = strings.ReplaceAll s ("$" ++ f) v := by
  intro visited
  induction visited with
  | nil => intro _ hmem; cases hmem
  | cons kv rest ih =>
    intro hnodup hmem hother
    obtain ⟨g, w⟩ := kv
    simp only [GoMap.keys, List.map_cons, List.nodup_cons, List.mem_map, not_exists,
      not_and] at hnodup
    obtain ⟨hfresh, hrest⟩ := hnodup
    rw [replaceInString_cons]
    by_cases hg : g = f
    · subst hg
      have hw : w = v := by
        rcases List.mem_cons.mp hmem with heq | hin
        · exact (Prod.mk.inj heq).2.symm
        · exact absurd rfl (hfresh (g, v) hin)
      subst hw
      apply replaceInString_of_no_token
      intro kv' hkv'
      have hne : kv'.1 ≠ g := fun heq => hfresh kv' hkv' heq
      exact (hother kv' (List.mem_cons_of_mem _ hkv') hne).2
    · have hstep : strings.ReplaceAll s ("$" ++ g) w = s :=
        replaceAll_of_no_token s g w (hother (g, w) (by simp) hg).1
      simp only [hstep]
      have hmem' : (f, v) ∈ rest := by
        rcases List.mem_cons.mp hmem with heq | hin
        · exact absurd (Prod.mk.inj heq).1.symm hg
        · exact hin
      exact ih hrest hmem' (fun kv' hkv' => hother kv' (List.mem_cons_of_mem _ hkv'))

theorem GoMap.mem_of_get {β : Type} (m : List (String × β)) (key : String) (value : β)
    (h : GoMap.get m key = some value) : (key, value) ∈ m := by
  induction m with
  | nil => simp [GoMap.get] at h
  | cons kv rest ih =>
    obtain ⟨k, v⟩ := kv
    by_cases hk : k = key
    · subst hk
      simp only [GoMap.get, if_true, Option.some.injEq] at h
      subst h
      simp
    · simp only [GoMap.get, hk, if_false] at h
      exact List.mem_cons_of_mem _ (ih h)

mutual
/-- When every visiting order rewrites each string leaf of the payload as `F`
does, `ReplaceCapturedValues` is `F` applied to the string leaves. -/
theorem replaceCapturedValues_eq_mapStrings (store : Store) (F : String → String) :
    ∀ (payload : JVal) (order : RangeOrder),
      (∀ pos, ∀ s ∈ payload.strings, replaceInString (order pos store) s = F s) →
      ReplaceCapturedValues order store payload = payload.mapStrings F
  | .str s, order, h => by
    simp [ReplaceCapturedValues, JVal.mapStrings, h [] s (by simp [JVal.strings])]
  | .null, _, _ => by simp [ReplaceCapturedValues, JVal.mapStrings]
  | .bool _, _, _ => by simp [ReplaceCapturedValues, JVal.mapStrings]
  | .num _, _, _ => by simp [ReplaceCapturedValues, JVal.mapStrings]
  | .arr xs, order, h => by
    simp only [ReplaceCapturedValues, JVal.mapStrings, JVal.arr.injEq]
    exact replaceCapturedItems_eq_mapStrings store F xs order 0
      (fun pos s hs => h pos s (by simpa [JVal.strings] using hs))
  | .obj m, order, h => by
    simp only [ReplaceCapturedValues, JVal.mapStrings, JVal.obj.injEq]
    exact replaceCapturedFields_eq_mapStrings store F m order 0
      (fun pos s hs => h pos s (by simpa [JVal.strings] using hs))
/-- The same for the elements of a sequence. -/
theorem replaceCapturedItems_eq_mapStrings (store : Store) (F : String → String) :
    ∀ (xs : List JVal) (order : RangeOrder) (i : Nat),
      (∀ pos, ∀ s ∈ stringsItems xs, replaceInString (order pos store) s = F s) →
      replaceCapturedItems order store i xs = mapStringsItems F xs
  | [], _, _, _ => by simp [replaceCapturedItems, mapStringsItems]
  | x :: xs, order, i, h => by
    simp only [replaceCapturedItems, mapStringsItems, List.cons.injEq]
    exact ⟨replaceCapturedValues_eq_mapStrings store F x _
        (fun pos s hs => h (i :: pos) s (by simp [stringsItems, hs])),
      replaceCapturedItems_eq_mapStrings store F xs order (i + 1)
        (fun pos s hs => h pos s (by simp [stringsItems, hs]))⟩
/-- The same for the values of a mapping. -/
theorem replaceCapturedFields_eq_mapStrings (store : Store) (F : String → String) :
    ∀ (m : List (String × JVal)) (order : RangeOrder) (i : Nat),
      (∀ pos, ∀ s ∈ stringsFields m, replaceInString (order pos store) s = F s) →
      replaceCapturedFields order store i m = mapStringsFields F m
  | [], _, _, _ => by simp [replaceCapturedFields, mapStringsFields]
  | (k, v) :: rest, order, i, h => by
    simp only [replaceCapturedFields, mapStringsFields, List.cons.injEq, Prod.mk.injEq,
      true_and]
    exact ⟨replaceCapturedValues_eq_mapStrings store F v _
        (fun pos s hs => h (i :: pos) s (by simp [stringsFields, hs])),
      replaceCapturedFields_eq_mapStrings store F rest order (i + 1)
        (fun pos s hs => h pos s (by simp [stringsFields, hs]))⟩
end

theorem RangeOrder.stored_valid : RangeOrder.Valid RangeOrder.stored :=
  fun _ store => List.Perm.refl store

theorem RangeOrder.reversed_valid : RangeOrder.Valid RangeOrder.reversed :=
  fun _ store => List.reverse_perm store

/-- The round trip where no other key interferes: in a store with `f` captured
as `v`, and for a payload in whose string leaves no other captured key has
its token, before or after the replacement of `$f`, `ReplaceCapturedValues`
returns, in every visiting order, the same structure with every occurrence
of `$f` in every string leaf replaced by `v`. -/
theorem replaceCapturedValues_round_trip (order : RangeOrder) (horder : order.Valid)
    (store : Store) (hkeys : (GoMap.keys store).Nodup) (f v : String)
    (hf : GoMap.get store f = some v) (payload : JVal)
    (hother : ∀ s ∈ payload.strings, ∀ kv ∈ store, kv.1 ≠ f →
      ¬ hasToken s kv.1 ∧ ¬ hasToken (strings.ReplaceAll s ("$" ++ f) v) kv.1) :
    ReplaceCapturedValues order store payload =
      payload.mapStrings (fun s => strings.ReplaceAll s ("$" ++ f) v) := by
  apply replaceCapturedValues_eq_mapStrings
  intro pos s hs
  have hperm := horder pos store
  apply replaceInString_single_token
  · exact (hperm.map Prod.fst).nodup_iff.mpr hkeys
  · exact hperm.mem_iff.mpr (GoMap.mem_of_get store f v hf)
  · intro kv hkv hne
    exact hother s hs kv (hperm.mem_iff.mp hkv) hne

/-- The scenario of the specification: `token` is captured as `abc123` from
`{"token":"abc123"}`; the payload of test B is rewritten, and its header
`Authorization: $token` is dispatched as `abc123`. -/
theorem replaceCapturedValues_round_trip_witness :
    (AssertResponse [("token", .str "abc123")] [("token", .str "abc123")] [] ["token"]
        Sample.emptyWorld).2.capturedValues = [("token", "abc123")] ∧
      ReplaceCapturedValues RangeOrder.stored [("token", "abc123")]
          (.obj [("auth", .str "$token"), ("list", .arr [.str "Bearer $token", .num 1])]) =
        (JVal.obj [("auth", .str "$token"), ("list", .arr [.str "Bearer $token", .num 1])]
          ).mapStrings (fun s => strings.ReplaceAll s ("$" ++ "token") "abc123") ∧
      (JVal.obj [("auth", .str "$token"), ("list", .arr [.str "Bearer $token", .num 1])]
          ).mapStrings (fun s => strings.ReplaceAll s ("$" ++ "token") "abc123") =
        .obj [("auth", .str "abc123"), ("list", .arr [.str "Bearer abc123", .num 1])] ∧
      (buildRequest (Sample.server 200 [("name", .str "u")]) Sample.testB
          (.obj [("auth", .str "$token")]) ⟨[("token", "abc123")], []⟩).Header =
        [("Authorization", "abc123")] :=
  ⟨by decide,
    replaceCapturedValues_round_trip RangeOrder.stored RangeOrder.stored_valid
      [("token", "abc123")] (by decide) "token" "abc123" (by decide)
      (.obj [("auth", .str "$token"), ("list", .arr [.str "Bearer $token", .num 1])])
      (by
        intro s _ kv hkv hne
        simp only [List.mem_singleton] at hkv
        subst hkv
        exact absurd rfl hne),
    by decide, by decide⟩

/-- C5. With `token` captured as `abc123` and `token_type` as `Bearer` (from the
body `{"token":"abc123","token_type":"Bearer"}`), the string `$token_type`
is rewritten to `abc123_type` when `token` is visited first, where the round
trip for `f = token_type` gives `Bearer`; when `token_type` is visited first
it is rewritten to `Bearer`, where the round trip for `f = token` gives
`abc123_type`. Whatever the visiting order, one of the two captured fields
is not substituted as the round trip says. -/
theorem replaceCapturedValues_overlapping_token :
    (AssertResponse [("token", .str "abc123"), ("token_type", .str "Bearer")] [] []
        ["token", "token_type"] Sample.emptyWorld).2.capturedValues =
        [("token", "abc123"), ("token_type", "Bearer")] ∧
      RangeOrder.Valid RangeOrder.stored ∧ RangeOrder.Valid RangeOrder.reversed ∧
      GoMap.get [("token", "abc123"), ("token_type", "Bearer")] "token_type" = some "Bearer" ∧
      GoMap.get [("token", "abc123"), ("token_type", "Bearer")] "token" = some "abc123" ∧
      ReplaceCapturedValues RangeOrder.stored [("token", "abc123"), ("token_type", "Bearer")]
          (.str "$token_type") = .str "abc123_type" ∧
      (JVal.str "$token_type").mapStrings
          (fun s => strings.ReplaceAll s ("$" ++ "token_type") "Bearer") = .str "Bearer" ∧
      ReplaceCapturedValues RangeOrder.reversed [("token", "abc123"), ("token_type", "Bearer")]
          (.str "$token_type") = .str "Bearer" ∧
      (JVal.str "$token_type").mapStrings
          (fun s => strings.ReplaceAll s ("$" ++ "token") "abc123") = .str "abc123_type" ∧
      ReplaceCapturedValues RangeOrder.stored [("token", "abc123"), ("token_type", "Bearer")]
          (.str "$token_type") ≠
        (JVal.str "$token_type").mapStrings
          (fun s => strings.ReplaceAll s ("$" ++ "token_type") "Bearer") ∧
      ReplaceCapturedValues RangeOrder.reversed [("token", "abc123"), ("token_type", "Bearer")]
          (.str "$token_type") ≠
        (JVal.str "$token_type").mapStrings
          (fun s => strings.ReplaceAll s ("$" ++ "token") "abc123") :=
  ⟨by decide, RangeOrder.stored_valid, RangeOrder.reversed_valid, by decide, by decide,
    by decide, by decide, by decide, by decide, by decide, by decide⟩

/-! ## Trees: induction, unique keys, deep equality -/

mutual
/-- Induction on a tree, with the property available for every element of a
sequence and every value of a mapping. -/
theorem JVal.induct {P : JVal → Prop} (hnull : P .null) (hbool : ∀ b, P (.bool b))
    (hnum : ∀ n, P (.num n)) (hstr : ∀ s, P (.str s))
    (harr : ∀ xs : List JVal, (∀ x ∈ xs, P x) → P (.arr xs))
    (hobj : ∀ m : List (String × JVal), (∀ kv ∈ m, P kv.2) → P (.obj m)) :
    ∀ v : JVal, P v
  | .null => hnull
  | .bool b => hbool b
  | .num n => hnum n
  | .str s => hstr s
  | .arr xs => harr xs (JVal.induct_items hnull hbool hnum hstr harr hobj xs)
  | .obj m => hobj m (JVal.induct_fields hnull hbool hnum hstr harr hobj m)
theorem JVal.induct_items {P : JVal → Prop} (hnull : P .null) (hbool : ∀ b, P (.bool b))
    (hnum : ∀ n, P (.num n)) (hstr : ∀ s, P (.str s))
    (harr : ∀ xs : List JVal, (∀ x ∈ xs, P x) → P (.arr xs))
    (hobj : ∀ m : List (String × JVal), (∀ kv ∈ m, P kv.2) → P (.obj m)) :
    ∀ xs : List JVal, ∀ x ∈ xs, P x
  | [], _, hx => by cases hx
  | y :: ys, x, hx => by
    rcases List.mem_cons.mp hx with rfl | hx
    · exact JVal.induct hnull hbool hnum hstr harr hobj x
    · exact JVal.induct_items hnull hbool hnum hstr harr hobj ys x hx
theorem JVal.induct_fields {P : JVal → Prop} (hnull : P .null) (hbool : ∀ b, P (.bool b))
    (hnum : ∀ n, P (.num n)) (hstr : ∀ s, P (.str s))
    (harr : ∀ xs : List JVal, (∀ x ∈ xs, P x) → P (.arr xs))
    (hobj : ∀ m : List (String × JVal), (∀ kv ∈ m, P kv.2) → P (.obj m)) :
    ∀ m : List (String × JVal), ∀ kv ∈ m, P kv.2
  | [], _, hx => by cases hx
  | (k, v) :: rest, kv, hx => by
    rcases List.mem_cons.mp hx with rfl | hx
    · exact JVal.induct hnull hbool hnum hstr harr hobj v
    · exact JVal.induct_fields hnull hbool hnum hstr harr hobj rest kv hx
end

theorem GoMap.get_eq_none_iff {β : Type} (m : List (String × β)) (key : String) :
    GoMap.get m key = none ↔ key ∉ GoMap.keys m := by
  induction m with
  | nil => simp [GoMap.get, GoMap.keys]
  | cons kv rest ih =>
    obtain ⟨k, v⟩ := kv
    simp only [GoMap.keys] at ih
    by_cases hk : k = key
    · simp [GoMap.get, GoMap.keys, hk]
    · simp [GoMap.get, GoMap.keys, hk, ih, Ne.symm hk]

theorem GoMap.get_of_mem {β : Type} (m : List (String × β)) (key : String) (value : β)
    (hnodup : (GoMap.keys m).Nodup) (h : (key, value) ∈ m) : GoMap.get m key = some value := by
  induction m with
  | nil => cases h
  | cons kv rest ih =>
    obtain ⟨k, v⟩ := kv
    simp only [GoMap.keys, List.map_cons, List.nodup_cons, List.mem_map, not_exists,
      not_and] at hnodup
    rcases List.mem_cons.mp h with heq | hin
    · obtain ⟨rfl, rfl⟩ := Prod.mk.inj heq
      simp [GoMap.get]
    · have hne : k ≠ key := fun hk => hnodup.1 (key, value) hin hk.symm
      simp only [GoMap.get, hne, if_false]
      exact ih hnodup.2 hin

theorem uniqueKeysFields_iff (m : List (String × JVal)) :
    ∀ seen : List String, uniqueKeysFields seen m = true ↔
      (∀ k ∈ GoMap.keys m, k ∉ seen) ∧ (GoMap.keys m).Nodup ∧
        ∀ kv ∈ m, JVal.uniqueKeys kv.2 = true := by
  induction m with
  | nil => intro seen; simp [uniqueKeysFields, GoMap.keys]
  | cons kv rest ih =>
    intro seen
    obtain ⟨k, v⟩ := kv
    simp only [GoMap.keys] at ih
    simp only [uniqueKeysFields, Bool.and_eq_true, Bool.not_eq_true', ih, GoMap.keys,
      List.map_cons, List.mem_cons, forall_eq_or_imp, List.nodup_cons, not_or]
    constructor
    · rintro ⟨⟨hk, hv⟩, hfresh, hnodup, hvals⟩
      refine ⟨⟨by simpa using hk, fun a ha => (hfresh a ha).2⟩, ⟨?_, hnodup⟩, hv, hvals⟩
      intro hmem
      exact (hfresh k hmem).1 rfl
    · rintro ⟨⟨hk, hfresh⟩, ⟨hnotin, hnodup⟩, hv, hvals⟩
      refine ⟨⟨by simpa using hk, hv⟩, ?_, hnodup, hvals⟩
      intro a ha
      exact ⟨fun heq => hnotin (heq ▸ ha), hfresh a ha⟩

theorem uniqueKeys_obj_iff (m : List (String × JVal)) :
    JVal.uniqueKeys (.obj m) = true ↔
      (GoMap.keys m).Nodup ∧ ∀ kv ∈ m, JVal.uniqueKeys kv.2 = true := by
  simp [JVal.uniqueKeys, uniqueKeysFields_iff]

theorem deepEqualMap_iff (n : List (String × JVal)) :
    ∀ m : List (String × JVal), deepEqualMap m n = true ↔
      ∀ kv ∈ m, ∃ w, GoMap.get n kv.1 = some w ∧ DeepEqual kv.2 w = true := by
  intro m
  induction m with
  | nil => simp [deepEqualMap]
  | cons kv rest ih =>
    obtain ⟨k, v⟩ := kv
    simp only [deepEqualMap, Bool.and_eq_true, ih, List.mem_cons, forall_eq_or_imp]
    constructor
    · rintro ⟨hhead, htail⟩
      refine ⟨?_, htail⟩
      cases hget : GoMap.get n k with
      | none => simp [hget] at hhead
      | some w => exact ⟨w, rfl, by simpa [hget] using hhead⟩
    · rintro ⟨⟨w, hget, hw⟩, htail⟩
      exact ⟨by simp [hget, hw], htail⟩

theorem deepEqual_obj_iff (m n : List (String × JVal)) :
    DeepEqual (.obj m) (.obj n) = true ↔
      m.length = n.length ∧
        ∀ kv ∈ m, ∃ w, GoMap.get n kv.1 = some w ∧ DeepEqual kv.2 w = true := by
  simp [DeepEqual, deepEqualMap_iff]

/-! ## Removal respects deep equality -/

theorem GoMap.length_keys {β : Type} (m : List (String × β)) :
    (GoMap.keys m).length = m.length := by
  simp [GoMap.keys]

theorem GoMap.mem_keys_iff_get {β : Type} (m : List (String × β)) (key : String) :
    key ∈ GoMap.keys m ↔ ∃ v, GoMap.get m key = some v := by
  have h := GoMap.get_eq_none_iff m key
  cases hget : GoMap.get m key with
  | none => simp [hget] at h; simp [h]
  | some v => simp [hget] at h; simp [h]

/-- Two maps with unique keys that agree key by key on the kept keys, up to
deep equality of the cleaned values, have deeply equal cleaned maps. -/
theorem deepEqual_removeIgnoredFields_of_pointwise (m n : List (String × JVal))
    (ignoreFields : List String)
    (hm : (GoMap.keys m).Nodup) (hn : (GoMap.keys n).Nodup)
    (H : ∀ k, isFieldIgnored k ignoreFields = false →
      (GoMap.get m k = none ∧ GoMap.get n k = none) ∨
        ∃ x y, GoMap.get m k = some x ∧ GoMap.get n k = some y ∧
          DeepEqual (removeIgnoredValue x ignoreFields)
            (removeIgnoredValue y ignoreFields) = true) :
    DeepEqual (.obj (removeIgnoredFields m ignoreFields))
      (.obj (removeIgnoredFields n ignoreFields)) = true := by
  rw [deepEqual_obj_iff]
  constructor
  · rw [← GoMap.length_keys, ← GoMap.length_keys, keys_removeIgnoredFields,
      keys_removeIgnoredFields]
    apply List.Perm.length_eq
    rw [List.perm_ext_iff_of_nodup (hm.filter _) (hn.filter _)]
    intro a
    simp only [List.mem_filter, Bool.not_eq_true']
    constructor
    · rintro ⟨hmem, hig⟩
      refine ⟨?_, hig⟩
      rcases H a hig with ⟨hnone, _⟩ | ⟨x, y, _, hy, _⟩
      · exact absurd hmem ((GoMap.get_eq_none_iff m a).mp hnone)
      · exact (GoMap.mem_keys_iff_get n a).mpr ⟨y, hy⟩
    · rintro ⟨hmem, hig⟩
      refine ⟨?_, hig⟩
      rcases H a hig with ⟨_, hnone⟩ | ⟨x, y, hx, _, _⟩
      · exact absurd hmem ((GoMap.get_eq_none_iff n a).mp hnone)
      · exact (GoMap.mem_keys_iff_get m a).mpr ⟨x, hx⟩
  · rintro ⟨k, v⟩ hkv
    obtain ⟨hig, v0, hmem, hv⟩ := (mem_removeIgnoredFields ignoreFields k v m).mp hkv
    have hget := GoMap.get_of_mem m k v0 hm hmem
    rcases H k hig with ⟨hnone, _⟩ | ⟨x, y, hx, hy, hxy⟩
    · rw [hget] at hnone
      cases hnone
    · rw [hget] at hx
      cases hx
      refine ⟨removeIgnoredValue y ignoreFields, ?_, hv ▸ hxy⟩
      rw [get_removeIgnoredFields]
      simp [hig, hy]

/-- Deeply equal maps with unique keys have the same keys, with deeply equal
values. -/
theorem deepEqual_obj_pointwise (m n : List (String × JVal))
    (hm : (GoMap.keys m).Nodup) (h : DeepEqual (.obj m) (.obj n) = true) (k : String) :
    (GoMap.get m k = none ∧ GoMap.get n k = none) ∨
      ∃ x y, (k, x) ∈ m ∧ GoMap.get m k = some x ∧ GoMap.get n k = some y ∧
        DeepEqual x y = true := by
  obtain ⟨hlen, hpt⟩ := (deepEqual_obj_iff m n).mp h
  have hsub : GoMap.keys m ⊆ GoMap.keys n := by
    intro a ha
    obtain ⟨x, hx⟩ := (GoMap.mem_keys_iff_get m a).mp ha
    obtain ⟨w, hw, _⟩ := hpt (a, x) (GoMap.mem_of_get m a x hx)
    exact (GoMap.mem_keys_iff_get n a).mpr ⟨w, hw⟩
  have hperm : (GoMap.keys m).Perm (GoMap.keys n) :=
    (List.subperm_of_subset hm hsub).perm_of_length_le
      (by rw [GoMap.length_keys, GoMap.length_keys, hlen])
  cases hget : GoMap.get m k with
  | none =>
    left
    refine ⟨rfl, ?_⟩
    rw [GoMap.get_eq_none_iff] at hget ⊢
    exact fun hin => hget (hperm.mem_iff.mpr hin)
  | some x =>
    right
    have hmem := GoMap.mem_of_get m k x hget
    obtain ⟨w, hw, hxw⟩ := hpt (k, x) hmem
    exact ⟨x, w, hmem, rfl, hw, hxw⟩

/-- Cleaning two deeply equal values gives deeply equal values. -/
theorem deepEqual_removeIgnoredValue (ignoreFields : List String) :
    ∀ v v' : JVal, JVal.uniqueKeys v = true → JVal.uniqueKeys v' = true →
      DeepEqual v v' = true →
      DeepEqual (removeIgnoredValue v ignoreFields) (removeIgnoredValue v' ignoreFields) =
        true := by
  intro v
  induction v using JVal.induct with
  | hnull => intro v' _ _ h; cases v' <;> simp_all [DeepEqual, removeIgnoredValue]
  | hbool b => intro v' _ _ h; cases v' <;> simp_all [DeepEqual, removeIgnoredValue]
  | hnum n => intro v' _ _ h; cases v' <;> simp_all [DeepEqual, removeIgnoredValue]
  | hstr s => intro v' _ _ h; cases v' <;> simp_all [DeepEqual, removeIgnoredValue]
  | harr xs _ =>
    intro v' _ _ h
    cases v' with
    | arr ys => simpa [removeIgnoredValue] using h
    | null => simp [DeepEqual] at h
    | bool _ => simp [DeepEqual] at h
    | num _ => simp [DeepEqual] at h
    | str _ => simp [DeepEqual] at h
    | obj _ => simp [DeepEqual] at h
  | hobj m ih =>
    intro v' hu hu' h
    cases v' with
    | obj n =>
      obtain ⟨hm, hvm⟩ := (uniqueKeys_obj_iff m).mp hu
      obtain ⟨hn, hvn⟩ := (uniqueKeys_obj_iff n).mp hu'
      simp only [removeIgnoredValue]
      apply deepEqual_removeIgnoredFields_of_pointwise m n ignoreFields hm hn
      intro k _
      rcases deepEqual_obj_pointwise m n hm h k with hnone | ⟨x, y, hmem, hx, hy, hxy⟩
      · exact Or.inl hnone
      · exact Or.inr ⟨x, y, hx, hy,
          ih (k, x) hmem y (hvm (k, x) hmem) (hvn (k, y) (GoMap.mem_of_get n k y hy)) hxy⟩
    | null => simp [DeepEqual] at h
    | bool _ => simp [DeepEqual] at h
    | num _ => simp [DeepEqual] at h
    | str _ => simp [DeepEqual] at h
    | arr _ => simp [DeepEqual] at h

/-! ## Ignoring a top-level key -/

theorem strings.splitChars_of_not_mem (sep : Char) :
    ∀ cs : List Char, sep ∉ cs → strings.splitChars sep cs = [cs] := by
  intro cs
  induction cs with
  | nil => intro _; rfl
  | cons c cs ih =>
    intro h
    simp only [List.mem_cons, not_or] at h
    have hc : c ≠ sep := fun heq => h.1 heq.symm
    simp [strings.splitChars, hc, ih h.2]

theorem strings.split_of_no_sep (s : String) (sep : Char) (h : sep ∉ s.data) :
    strings.Split s sep = [s] := by
  simp [strings.Split, strings.splitChars_of_not_mem sep s.data h]

/-- A key without a dot, present in the body, exists as a path. -/
theorem fieldExists_of_key (data : JMap) (k : String) (hdot : '.' ∉ k.data)
    (hpresent : k ∈ GoMap.keys data) : fieldExists data k = true := by
  obtain ⟨v, hget⟩ := (GoMap.mem_keys_iff_get data k).mp hpresent
  unfold fieldExists
  rw [strings.split_of_no_sep k '.' hdot]
  by_cases hk : k = "*"
  · simp only [checkFieldExists, hk, if_true, List.any_eq_true]
    exact ⟨(k, v), GoMap.mem_of_get data k v hget, trivial⟩
  · simp [checkFieldExists, hk, hget]

theorem isFieldIgnored_singleton_self (k : String) : isFieldIgnored k [k] = true := by
  simp [isFieldIgnored]

/-- C1, as amended. For bodies with unique keys and a top-level key `k` that
has no dot and is present in the actual body: when the two bodies hold deeply
equal values under every key other than `k`, `AssertResponse` with the ignore
list `[k]` returns `(true, "")` for every capture list, whatever the two
values under `k` are. -/
theorem assertResponse_ignored_key_passes (actualBody expectedBody : JMap) (k : String)
    (captureFields : List String) (w : World)
    (hactual : JVal.uniqueKeys (.obj actualBody) = true)
    (hexpected : JVal.uniqueKeys (.obj expectedBody) = true)
    (hdot : '.' ∉ k.data) (hpresent : k ∈ GoMap.keys actualBody)
    (hagree : ∀ k', k' ≠ k → agreeAt actualBody expectedBody k' = true) :
    (AssertResponse actualBody expectedBody [k] captureFields w).1 = (true, "") := by
  have hexists := fieldExists_of_key actualBody k hdot hpresent
  obtain ⟨ha, hva⟩ := (uniqueKeys_obj_iff actualBody).mp hactual
  obtain ⟨he, hve⟩ := (uniqueKeys_obj_iff expectedBody).mp hexpected
  have hdeep : DeepEqual (.obj (removeIgnoredFields actualBody [k]))
      (.obj (removeIgnoredFields expectedBody [k])) = true := by
    apply deepEqual_removeIgnoredFields_of_pointwise actualBody expectedBody [k] ha he
    intro k' hig
    have hne : k' ≠ k := by
      rintro rfl
      rw [isFieldIgnored_singleton_self] at hig
      cases hig
    have hag := hagree k' hne
    unfold agreeAt at hag
    cases hx : GoMap.get actualBody k' with
    | none =>
      cases hy : GoMap.get expectedBody k' with
      | none => exact Or.inl ⟨rfl, rfl⟩
      | some y => simp [hx, hy] at hag
    | some x =>
      cases hy : GoMap.get expectedBody k' with
      | none => simp [hx, hy] at hag
      | some y =>
        simp only [hx, hy] at hag
        exact Or.inr ⟨x, y, rfl, rfl,
          deepEqual_removeIgnoredValue [k] x y
            (hva (k', x) (GoMap.mem_of_get actualBody k' x hx))
            (hve (k', y) (GoMap.mem_of_get expectedBody k' y hy)) hag⟩
  unfold AssertResponse
  simp [hexists, hdeep]

/-- C1 on the scenario: expected `{"id":1,"ts":"ignored"}`, actual
`{"id":1,"ts":"2024-01-01"}`, ignore `["ts"]`. -/
theorem assertResponse_ignored_key_passes_witness :
    (AssertResponse [("id", .num 1), ("ts", .str "2024-01-01")]
      [("id", .num 1), ("ts", .str "ignored")] ["ts"] ["id"] Sample.emptyWorld).1 =
      (true, "") :=
  assertResponse_ignored_key_passes [("id", .num 1), ("ts", .str "2024-01-01")]
    [("id", .num 1), ("ts", .str "ignored")] "ts" ["id"] Sample.emptyWorld
    (by decide) (by decide) (by decide) (by decide)
    (by
      intro k' hk'
      by_cases hid : k' = "id"
      · subst hid; decide
      · have h1 : ¬ "id" = k' := fun h => hid h.symm
        have h2 : ¬ "ts" = k' := fun h => hk' h.symm
        simp [agreeAt, GoMap.get, h1, h2])

/-- C1 as stated fails for a key that holds a dot. The actual body
`{"a.b":1}` has the top-level key `a.b`, the expected body is the same, so
the bodies agree under every key, and yet `AssertResponse` with the ignore
list `["a.b"]` fails: the path `a.b` is looked up as key `b` under key `a`. -/
theorem assertResponse_ignored_key_counterexample :
    "a.b" ∈ GoMap.keys [("a.b", JVal.num 1)] ∧
      (∀ k', agreeAt [("a.b", .num 1)] [("a.b", .num 1)] k' = true) ∧
      (AssertResponse [("a.b", .num 1)] [("a.b", .num 1)] ["a.b"] [] Sample.emptyWorld).1 =
        (false, "Ignored field 'a.b' is missing in actual response") := by
  refine ⟨by decide, ?_, by decide⟩
  intro k'
  by_cases h : "a.b" = k'
  · subst h; decide
  · simp [agreeAt, GoMap.get, h]

/-! ## Wildcard ignore paths clear the tree -/

theorem removeIgnoredFields_eq_nil_of_all_ignored (ignoreFields : List String)
    (h : ∀ k, isFieldIgnored k ignoreFields = true) :
    ∀ data : List (String × JVal), removeIgnoredFields data ignoreFields = [] := by
  intro data
  induction data with
  | nil => exact removeIgnoredFields_nil ignoreFields
  | cons kv rest ih =>
    obtain ⟨key, value⟩ := kv
    rw [removeIgnoredFields_cons, h key]
    simpa using ih

theorem deepEqual_empty_obj : DeepEqual (.obj []) (.obj []) = true := by
  simp [DeepEqual, deepEqualMap]

/-- C17. When the ignore list holds a path ending in `.*`, `removeIgnoredFields`
returns the empty mapping for every tree, and `AssertResponse`, once every
ignore path resolves in the actual body, returns `(true, "")` for every
expected body and capture list. -/
theorem wildcard_ignore_passes_everything (ignoreFields : List String)
    (h : ∃ p ∈ ignoreFields, strings.HasSuffix p ".*" = true) :
    (∀ data : JMap, removeIgnoredFields data ignoreFields = []) ∧
      ∀ (actualBody expectedBody : JMap) (captureFields : List String) (w : World),
        (∀ p ∈ ignoreFields, fieldExists actualBody p = true) →
        (AssertResponse actualBody expectedBody ignoreFields captureFields w).1 =
          (true, "") := by
  obtain ⟨p, hp, hs⟩ := h
  have hall : ∀ k, isFieldIgnored k ignoreFields = true := fun k =>
    (isFieldIgnored_iff k ignoreFields).mpr ⟨p, hp, Or.inr (Or.inr hs)⟩
  refine ⟨removeIgnoredFields_eq_nil_of_all_ignored ignoreFields hall, ?_⟩
  intro actualBody expectedBody captureFields w hres
  have hfind : ignoreFields.find? (fun field => !fieldExists actualBody field) = none := by
    simp only [List.find?_eq_none]
    intro x hx
    simp [hres x hx]
  unfold AssertResponse
  simp [hfind, removeIgnoredFields_eq_nil_of_all_ignored ignoreFields hall,
    deepEqual_empty_obj]

/-- C17 on the actual body `{"user":{"id":1}}` against the unrelated expected
body `{"error":"boom"}` with the ignore list `["user.*"]`. -/
theorem wildcard_ignore_passes_everything_witness :
    removeIgnoredFields [("user", .obj [("id", .num 1)]), ("n", .num 2)] ["user.*"] = [] ∧
      (AssertResponse [("user", .obj [("id", .num 1)])] [("error", .str "boom")] ["user.*"]
        [] Sample.emptyWorld).1 = (true, "") :=
  have h := wildcard_ignore_passes_everything ["user.*"] ⟨"user.*", by simp, by decide⟩
  ⟨h.1 _, h.2 _ _ _ _ (by decide)⟩

/-! ## Existence is closed under initial parts of the path -/

theorem checkFieldExists_of_append (ks ks' : List String) :
    ∀ tree : JVal, checkFieldExists tree (ks ++ ks') = true →
      checkFieldExists tree ks = true := by
  induction ks with
  | nil => intro tree _; simp [checkFieldExists]
  | cons s rest ih =>
    intro tree h
    rw [List.cons_append] at h
    cases tree with
    | obj m =>
      by_cases hs : s = "*"
      · subst hs
        simp only [checkFieldExists, if_true, List.any_eq_true] at h ⊢
        obtain ⟨kv, hmem, hkv⟩ := h
        exact ⟨kv, hmem, ih kv.2 hkv⟩
      · simp only [checkFieldExists, hs, if_false] at h ⊢
        cases hget : GoMap.get m s with
        | none => simp [hget] at h
        | some v =>
          simp only [hget] at h ⊢
          exact ih v h
    | arr xs =>
      by_cases hs : s = "*"
      · subst hs
        simp only [checkFieldExists, if_true, List.any_eq_true] at h ⊢
        obtain ⟨x, hmem, hx⟩ := h
        exact ⟨x, hmem, ih x hx⟩
      · simp [checkFieldExists, hs] at h
    | null => simp [checkFieldExists] at h
    | bool b => simp [checkFieldExists] at h
    | num n => simp [checkFieldExists] at h
    | str t => simp [checkFieldExists] at h

theorem strings.splitChars_ne_nil (sep : Char) (cs : List Char) :
    strings.splitChars sep cs ≠ [] := by
  cases cs with
  | nil => simp [strings.splitChars]
  | cons c cs =>
    by_cases hc : c = sep
    · simp [strings.splitChars, hc]
    · simp only [strings.splitChars, hc, if_false]
      split <;> simp

theorem strings.splitChars_cons (sep c : Char) (cs : List Char) :
    strings.splitChars sep (c :: cs) =
      if c = sep then [] :: strings.splitChars sep cs
      else
        match strings.splitChars sep cs with
        | [] => [[c]]
        | seg :: segs => (c :: seg) :: segs := by
  simp [strings.splitChars]

theorem strings.splitChars_append_sep (sep : Char) (b : List Char) :
    ∀ a : List Char, strings.splitChars sep (a ++ sep :: b) =
      strings.splitChars sep a ++ strings.splitChars sep b := by
  intro a
  induction a with
  | nil => simp [strings.splitChars]
  | cons c a ih =>
    by_cases hc : c = sep
    · simp [strings.splitChars, hc, ih]
    · rw [List.cons_append, strings.splitChars_cons, strings.splitChars_cons, if_neg hc,
        if_neg hc, ih]
      cases hsplit : strings.splitChars sep a with
      | nil => exact absurd hsplit (strings.splitChars_ne_nil sep a)
      | cons seg segs => simp

theorem strings.split_append_sep (p q : String) (sep : Char) :
    strings.Split (p ++ String.singleton sep ++ q) sep =
      strings.Split p sep ++ strings.Split q sep := by
  simp [strings.Split, String.singleton, strings.splitChars_append_sep]

/-- C18. Existence is closed under initial parts: when `checkFieldExists` holds
of the segment list `ks ++ ks'` it holds of `ks`, and when the dotted path
`p.q` exists in a body the path `p` exists in it, wildcard segments
included. -/
theorem fieldExists_initial_part :
    (∀ (tree : JVal) (ks ks' : List String),
        checkFieldExists tree (ks ++ ks') = true → checkFieldExists tree ks = true) ∧
      ∀ (data : JMap) (p q : String),
        fieldExists data (p ++ "." ++ q) = true → fieldExists data p = true := by
  refine ⟨fun tree ks ks' h => checkFieldExists_of_append ks ks' tree h, ?_⟩
  intro data p q h
  unfold fieldExists at h ⊢
  have hsplit : strings.Split (p ++ "." ++ q) '.' =
      strings.Split p '.' ++ strings.Split q '.' :=
    strings.split_append_sep p q '.'
  rw [hsplit] at h
  exact checkFieldExists_of_append _ _ _ h

/-- C18 on `{"items":[{"ts":"x"}]}`: `items.*.ts` exists, hence `items.*` does. -/
theorem fieldExists_initial_part_witness :
    fieldExists [("items", .arr [.obj [("ts", .str "x")]])] "items.*" = true :=
  fieldExists_initial_part.2 [("items", .arr [.obj [("ts", .str "x")]])] "items.*" "ts"
    (by decide)

/-! ## Removal is idempotent -/

theorem isFieldIgnored_nil (field : String) : isFieldIgnored field [] = false := by
  simp [isFieldIgnored]

mutual
theorem removeIgnoredFields_idem (ignoreFields : List String) :
    ∀ data : List (String × JVal),
      removeIgnoredFields (removeIgnoredFields data ignoreFields) ignoreFields =
        removeIgnoredFields data ignoreFields
  | [] => by simp [removeIgnoredFields_nil]
  | (key, value) :: rest => by
    have ihrest := removeIgnoredFields_idem ignoreFields rest
    have ihv := removeIgnoredValue_idem ignoreFields value
    rw [removeIgnoredFields_cons]
    cases hig : isFieldIgnored key ignoreFields with
    | true => simpa using ihrest
    | false =>
      simp only [Bool.false_eq_true, if_false]
      rw [removeIgnoredFields_cons, hig]
      simp [ihrest, ihv]
theorem removeIgnoredValue_idem (ignoreFields : List String) :
    ∀ value : JVal,
      removeIgnoredValue (removeIgnoredValue value ignoreFields) ignoreFields =
        removeIgnoredValue value ignoreFields
  | .obj m => by
    have ih := removeIgnoredFields_idem ignoreFields m
    simp [removeIgnoredValue, ih]
  | .null => by simp [removeIgnoredValue]
  | .bool _ => by simp [removeIgnoredValue]
  | .num _ => by simp [removeIgnoredValue]
  | .str _ => by simp [removeIgnoredValue]
  | .arr _ => by simp [removeIgnoredValue]
end

mutual
theorem removeIgnoredFields_nil_ignore :
    ∀ data : List (String × JVal), removeIgnoredFields data [] = data
  | [] => by simp [removeIgnoredFields_nil]
  | (key, value) :: rest => by
    have ihrest := removeIgnoredFields_nil_ignore rest
    have ihv := removeIgnoredValue_nil_ignore value
    rw [removeIgnoredFields_cons, isFieldIgnored_nil]
    simp [ihrest, ihv]
theorem removeIgnoredValue_nil_ignore :
    ∀ value : JVal, removeIgnoredValue value [] = value
  | .obj m => by
    have ih := removeIgnoredFields_nil_ignore m
    simp [removeIgnoredValue, ih]
  | .null => by simp [removeIgnoredValue]
  | .bool _ => by simp [removeIgnoredValue]
  | .num _ => by simp [removeIgnoredValue]
  | .str _ => by simp [removeIgnoredValue]
  | .arr _ => by simp [removeIgnoredValue]
end

/-- C19. `removeIgnoredFields` is idempotent: cleaning a cleaned tree with the
same ignore list gives the cleaned tree again, and cleaning with the empty
ignore list gives the tree itself (equal entry by entry, hence structurally
equal). -/
theorem removeIgnoredFields_idempotent (t : JMap) (ig : List String) :
    removeIgnoredFields (removeIgnoredFields t ig) ig = removeIgnoredFields t ig ∧
      removeIgnoredFields t [] = t :=
  ⟨removeIgnoredFields_idem ig t, removeIgnoredFields_nil_ignore t⟩

/-! ## The assertion engine can be repeated -/

/-- The verdict, the message and the snapshot of `AssertResponse` are fixed by
its four arguments. -/
theorem assertResponse_fixed_by_arguments (actualBody expectedBody : JMap)
    (ignoreFields captureFields : List String) :
    ∃ (verdict : Bool × String) (snapshot : JMap), ∀ w : World,
      (AssertResponse actualBody expectedBody ignoreFields captureFields w).1 = verdict ∧
      (AssertResponse actualBody expectedBody ignoreFields captureFields w).2.files =
        w.files ++ [("result.json", snapshot)] := by
  cases hfind : ignoreFields.find? (fun field => !fieldExists actualBody field) with
  | some field =>
    refine ⟨(false, "Ignored field '" ++ field ++ "' is missing in actual response"),
      actualBody, fun w => ?_⟩
    simp [AssertResponse, hfind, saveResponseToFile]
  | none =>
    cases hdeep : DeepEqual (.obj (removeIgnoredFields actualBody ignoreFields))
        (.obj (removeIgnoredFields expectedBody ignoreFields)) with
    | true =>
      refine ⟨(true, ""), removeIgnoredFields actualBody ignoreFields, fun w => ?_⟩
      simp [AssertResponse, hfind, saveResponseToFile, hdeep]
    | false =>
      refine ⟨(false, "Response body does not match expected output"),
        removeIgnoredFields actualBody ignoreFields, fun w => ?_⟩
      simp [AssertResponse, hfind, saveResponseToFile, hdeep]

/-- C12. Two calls of `AssertResponse` in succession on the same arguments return
the same verdict and message and write the same snapshot, from every initial
world: verdict, message and snapshot are fixed by the four arguments and do
not depend on the Substitution Store (nor on the files written before). -/
theorem assertResponse_twice (actualBody expectedBody : JMap)
    (ignoreFields captureFields : List String) :
    ∃ (verdict : Bool × String) (snapshot : JMap), ∀ w : World,
      (AssertResponse actualBody expectedBody ignoreFields captureFields w).1 = verdict ∧
      (AssertResponse actualBody expectedBody ignoreFields captureFields
        (AssertResponse actualBody expectedBody ignoreFields captureFields w).2).1 =
          verdict ∧
      (AssertResponse actualBody expectedBody ignoreFields captureFields w).2.files =
        w.files ++ [("result.json", snapshot)] ∧
      (AssertResponse actualBody expectedBody ignoreFields captureFields
        (AssertResponse actualBody expectedBody ignoreFields captureFields w).2).2.files =
          w.files ++ [("result.json", snapshot), ("result.json", snapshot)] := by
  obtain ⟨verdict, snapshot, h⟩ :=
    assertResponse_fixed_by_arguments actualBody expectedBody ignoreFields captureFields
  refine ⟨verdict, snapshot, fun w => ?_⟩
  have h1 := h w
  have h2 := h (AssertResponse actualBody expectedBody ignoreFields captureFields w).2
  refine ⟨h1.1, h2.1, h1.2, ?_⟩
  rw [h2.2, h1.2]
  simp

/-! ## Substitution keeps the shape of the payload -/

mutual
theorem skeleton_replaceCapturedValues (store : Store) :
    ∀ (payload : JVal) (order : RangeOrder),
      (ReplaceCapturedValues order store payload).mapStrings (fun _ => "") =
        payload.mapStrings (fun _ => "")
  | .str _, _ => by simp [ReplaceCapturedValues, JVal.mapStrings]
  | .null, _ => by simp [ReplaceCapturedValues]
  | .bool _, _ => by simp [ReplaceCapturedValues]
  | .num _, _ => by simp [ReplaceCapturedValues]
  | .arr xs, order => by
    simp only [ReplaceCapturedValues, JVal.mapStrings, JVal.arr.injEq]
    exact skeleton_replaceCapturedItems store xs order 0
  | .obj m, order => by
    simp only [ReplaceCapturedValues, JVal.mapStrings, JVal.obj.injEq]
    exact skeleton_replaceCapturedFields store m order 0
theorem skeleton_replaceCapturedItems (store : Store) :
    ∀ (xs : List JVal) (order : RangeOrder) (i : Nat),
      mapStringsItems (fun _ => "") (replaceCapturedItems order store i xs) =
        mapStringsItems (fun _ => "") xs
  | [], _, _ => by simp [replaceCapturedItems]
  | x :: xs, order, i => by
    simp only [replaceCapturedItems, mapStringsItems, List.cons.injEq]
    exact ⟨skeleton_replaceCapturedValues store x _,
      skeleton_replaceCapturedItems store xs order (i + 1)⟩
theorem skeleton_replaceCapturedFields (store : Store) :
    ∀ (m : List (String × JVal)) (order : RangeOrder) (i : Nat),
      mapStringsFields (fun _ => "") (replaceCapturedFields order store i m) =
        mapStringsFields (fun _ => "") m
  | [], _, _ => by simp [replaceCapturedFields]
  | (k, v) :: rest, order, i => by
    simp only [replaceCapturedFields, mapStringsFields, List.cons.injEq, Prod.mk.injEq,
      true_and]
    exact ⟨skeleton_replaceCapturedValues store v _,
      skeleton_replaceCapturedFields store rest order (i + 1)⟩
end

mutual
theorem mapStrings_id : ∀ v : JVal, v.mapStrings (fun s => s) = v
  | .str _ => by simp [JVal.mapStrings]
  | .null => by simp [JVal.mapStrings]
  | .bool _ => by simp [JVal.mapStrings]
  | .num _ => by simp [JVal.mapStrings]
  | .arr xs => by simp [JVal.mapStrings, mapStringsItems_id xs]
  | .obj m => by simp [JVal.mapStrings, mapStringsFields_id m]
theorem mapStringsItems_id : ∀ xs : List JVal, mapStringsItems (fun s => s) xs = xs
  | [] => by simp [mapStringsItems]
  | x :: xs => by simp [mapStringsItems, mapStrings_id x, mapStringsItems_id xs]
theorem mapStringsFields_id :
    ∀ m : List (String × JVal), mapStringsFields (fun s => s) m = m
  | [] => by simp [mapStringsFields]
  | (k, v) :: rest => by simp [mapStringsFields, mapStrings_id v, mapStringsFields_id rest]
end

theorem not_hasToken_of_no_dollar (s key : String) (h : '$' ∉ s.data) :
    ¬ hasToken s key := by
  intro htok
  unfold hasToken at htok
  apply h
  apply htok.subset
  simp

/-- C20. `ReplaceCapturedValues` keeps the shape of the payload: with the string
leaves blanked the result is the payload, whatever the store and the visiting
order (same mapping keys, same sequences, same numbers, booleans and nulls);
and the result is the payload itself when the store is empty, and when no
string leaf holds the character `$`. -/
theorem replaceCapturedValues_keeps_shape (order : RangeOrder) (store : Store)
    (payload : JVal) :
    (ReplaceCapturedValues order store payload).skeleton = payload.skeleton ∧
      (order.Valid → ReplaceCapturedValues order [] payload = payload) ∧
      ((∀ s ∈ payload.strings, '$' ∉ s.data) →
        ReplaceCapturedValues order store payload = payload) := by
  refine ⟨skeleton_replaceCapturedValues store payload order, ?_, ?_⟩
  · intro hvalid
    have h := replaceCapturedValues_eq_mapStrings [] (fun s => s) payload order
      (fun pos s _ => by
        have hnil : order pos [] = [] := List.Perm.eq_nil (hvalid pos [])
        rw [hnil]
        rfl)
    rw [h, mapStrings_id]
  · intro hno
    have h := replaceCapturedValues_eq_mapStrings store (fun s => s) payload order
      (fun pos s hs => replaceInString_of_no_token _ s
        (fun kv _ => not_hasToken_of_no_dollar s kv.1 (hno s hs)))
    rw [h, mapStrings_id]

/-- C20 on `{"user":"$name","tags":["a",1,null],"ok":true}` with `name` captured
as `ann`: the shape is kept, and the payload without `$` comes back as it is. -/
theorem replaceCapturedValues_keeps_shape_witness :
    (ReplaceCapturedValues RangeOrder.stored [("name", "ann")]
        (.obj [("user", .str "$name"), ("tags", .arr [.str "a", .num 1, .null]),
          ("ok", .bool true)])).skeleton =
        (JVal.obj [("user", .str "$name"), ("tags", .arr [.str "a", .num 1, .null]),
          ("ok", .bool true)]).skeleton ∧
      ReplaceCapturedValues RangeOrder.stored []
          (.obj [("user", .str "$name"), ("tags", .arr [.str "a", .num 1, .null])]) =
        .obj [("user", .str "$name"), ("tags", .arr [.str "a", .num 1, .null])] ∧
      ReplaceCapturedValues RangeOrder.stored [("name", "ann")]
          (.obj [("user", .str "name"), ("tags", .arr [.str "a", .num 1, .null])]) =
        .obj [("user", .str "name"), ("tags", .arr [.str "a", .num 1, .null])] :=
  ⟨(replaceCapturedValues_keeps_shape RangeOrder.stored [("name", "ann")] _).1,
    (replaceCapturedValues_keeps_shape RangeOrder.stored []
      (.obj [("user", .str "$name"), ("tags", .arr [.str "a", .num 1, .null])])).2.1
      RangeOrder.stored_valid,
    (replaceCapturedValues_keeps_shape RangeOrder.stored [("name", "ann")]
      (.obj [("user", .str "name"), ("tags", .arr [.str "a", .num 1, .null])])).2.2
      (by decide)⟩

/-! ## Scheduler -/

theorem expectedFor_of_lt (test : TestCase) (i : Nat) (h : i < test.Expect.length) :
    expectedFor test i = some (test.Expect.get ⟨i, h⟩) := by
  simp [expectedFor, h]

theorem expectedFor_of_ge (test : TestCase) (i : Nat) (hne : test.Expect ≠ [])
    (h : test.Expect.length ≤ i) :
    expectedFor test i = some (test.Expect.getLast hne) := by
  have hpos : 0 < test.Expect.length := List.length_pos.mpr hne
  have hlast : ¬ ((test.Expect.length : Int) - 1 < 0) := by omega
  have htoNat : ((test.Expect.length : Int) - 1).toNat = test.Expect.length - 1 := by omega
  simp only [expectedFor, Nat.not_lt.mpr h, if_false, hlast, htoNat]
  rw [List.getLast_eq_getElem]
  exact List.getElem?_eq_getElem _

theorem expectedFor_isSome (test : TestCase) (i : Nat) (hne : test.Expect ≠ []) :
    ∃ expected, expectedFor test i = some expected := by
  by_cases h : i < test.Expect.length
  · exact ⟨_, expectedFor_of_lt test i h⟩
  · exact ⟨_, expectedFor_of_ge test i hne (Nat.not_lt.mp h)⟩

theorem expectedFor_of_empty (test : TestCase) (i : Nat) (h : test.Expect = []) :
    expectedFor test i = none := by
  simp [expectedFor, h]

/-- With an empty `Expect` list the loop panics at its first payload variant. -/
theorem payloadLoop_of_empty_expect (env : Nat → Env) (i : Nat) (payload : JVal)
    (rest : List JVal) (test : TestCase) (st : RunState) (h : test.Expect = []) :
    payloadLoop env i (payload :: rest) test st = none := by
  simp [payloadLoop, expectedFor_of_empty test i h]

/-- C11. With an empty `Expect` list and a payload variant, the index of the
last expected response is out of range and `executeMultiplePayloads` panics
instead of checking the variant; with the one expected response `e` and three
variants, every variant is checked against `e`. -/
theorem executeMultiplePayloads_empty_expect :
    expectedFor { Sample.testTwoVariants with Expect := [] } 0 = none ∧
      executeMultiplePayloads Sample.refreshServer
        { Sample.testTwoVariants with Expect := [] }
        ⟨[], Sample.emptyWorld, [], []⟩ = none ∧
      (List.range 3).map (expectedFor Sample.testTwoVariants) =
        [some ⟨200, [], ["token"]⟩, some ⟨200, [], ["token"]⟩,
          some ⟨200, [], ["token"]⟩] := by
  decide

theorem executeTest_result_id (env : Env) (test : TestCase) (payload : JVal)
    (expected : ExpectedResponse) (dependencies : List (String × JMap)) (w : World) :
    (ExecuteTest env test payload expected dependencies w).result.TestID = test.ID ∧
      (ExecuteTest env test payload expected dependencies w).result.Name = test.Name := by
  unfold ExecuteTest
  cases env.newRequest test.Method test.URL with
  | some err => exact ⟨rfl, rfl⟩
  | none =>
    cases hrt : env.roundTrip (buildRequest env test payload w) with
    | error err => simp [hrt]
    | ok r =>
      obtain ⟨statusCode, actualBody⟩ := r
      by_cases h : statusCode = expected.Status <;> simp [hrt, h]

/-- With a non-empty `Expect` list the loop returns, adding one result per
payload variant, in order, each with the identifier and name of the case. -/
theorem payloadLoop_results (env : Nat → Env) :
    ∀ (payloads : List JVal) (i : Nat) (test : TestCase) (st : RunState),
      test.Expect ≠ [] →
      ∃ st', payloadLoop env i payloads test st = some st' ∧
        st'.results.map (fun r => (r.TestID, r.Name)) =
          st.results.map (fun r => (r.TestID, r.Name)) ++
            payloads.map (fun _ => (test.ID, test.Name)) := by
  intro payloads
  induction payloads with
  | nil => intro i test st _; exact ⟨st, rfl, by simp⟩
  | cons payload rest ih =>
    intro i test st hne
    obtain ⟨expected, hexp⟩ := expectedFor_isSome test i hne
    simp only [payloadLoop, hexp]
    obtain ⟨st', hst', hres⟩ := ih (i + 1)
      { test with Headers :=
          (ExecuteTest (env i) test payload expected st.dependencies st.world).headers }
      { dependencies :=
          (ExecuteTest (env i) test payload expected st.dependencies st.world).dependencies,
        world := (ExecuteTest (env i) test payload expected st.dependencies st.world).world,
        results := st.results ++
          [(ExecuteTest (env i) test payload expected st.dependencies st.world).result],
        sent := st.sent ++
          (ExecuteTest (env i) test payload expected st.dependencies st.world).request.toList }
      hne
    refine ⟨st', hst', ?_⟩
    rw [hres]
    have hid := executeTest_result_id (env i) test payload expected st.dependencies st.world
    simp [hid.1, hid.2]

theorem runLoop_results (env : Nat → Nat → Env) :
    ∀ (tests : List TestCase) (n : Nat) (st : RunState),
      (∀ t ∈ tests, t.Expect ≠ []) →
      ∃ st', runLoop env n tests st = some st' ∧
        st'.results.map (fun r => (r.TestID, r.Name)) =
          st.results.map (fun r => (r.TestID, r.Name)) ++
            tests.flatMap (fun t => t.Body.map (fun _ => (t.ID, t.Name))) := by
  intro tests
  induction tests with
  | nil => intro n st _; exact ⟨st, rfl, by simp⟩
  | cons test rest ih =>
    intro n st hne
    obtain ⟨st1, hst1, hres1⟩ :=
      payloadLoop_results (env n) test.Body 0 test st (hne test (by simp))
    obtain ⟨st2, hst2, hres2⟩ := ih (n + 1) st1 (fun t ht => hne t (by simp [ht]))
    refine ⟨st2, ?_, ?_⟩
    · simp only [runLoop, executeMultiplePayloads, hst1]
      exact hst2
    · rw [hres2, hres1]
      simp

/-- C15. With the parallelism flag off and every case holding a non-empty `Expect`
list, `RunTests` returns, whatever the environment answers to each request,
and the collection handed to the log writer holds one result per test case
and payload variant, in input order of the cases and then array order of the
payloads, each with the identifier and name of its case; its length is the
sum of the `Body` lengths. -/
theorem runTests_results_complete (env : Nat → Nat → Env) (tests : List TestCase)
    (w : World) (h : ∀ t ∈ tests, t.Expect ≠ []) :
    ∃ results, RunTests env tests w = some results ∧
      results.map (fun r => (r.TestID, r.Name)) =
        tests.flatMap (fun t => t.Body.map (fun _ => (t.ID, t.Name))) ∧
      results.length = (tests.map (fun t => t.Body.length)).sum := by
  obtain ⟨st', hst', hres⟩ := runLoop_results env tests 0
    { dependencies := [], world := w, results := [], sent := [] } h
  refine ⟨st'.results, by simp [RunTests, hst'], by simpa using hres, ?_⟩
  have hlen := congrArg List.length hres
  simp only [List.length_map, List.map_nil, List.nil_append] at hlen
  rw [hlen]
  clear hres hst' hlen h
  induction tests with
  | nil => simp
  | cons t rest ih =>
    rw [List.flatMap_cons, List.length_append, ih]
    simp

/-- C15 on two cases, the second with two payload variants, in an environment
where request construction fails, the network fails and the status is wrong:
three results, in order. -/
theorem runTests_results_complete_witness :
    ∃ results, RunTests Sample.mixedEnv [Sample.testA, Sample.testTwoVariants]
        Sample.emptyWorld = some results ∧
      results.map (fun r => (r.TestID, r.Name)) =
        [Sample.testA, Sample.testTwoVariants].flatMap
          (fun t => t.Body.map (fun _ => (t.ID, t.Name))) ∧
      results.length =
        ([Sample.testA, Sample.testTwoVariants].map (fun t => t.Body.length)).sum :=
  runTests_results_complete Sample.mixedEnv [Sample.testA, Sample.testTwoVariants]
    Sample.emptyWorld (by decide)

/-- C14. A case with the declared header `Authorization: $token` and two payload
variants, run with `token` captured as `old`: the first variant is answered
with the token `new`, which the store holds when the second variant is
dispatched, and the declared header rewritten with that store is `new`; yet
the second variant is dispatched with `old`, because the header loop of the
first variant wrote `old` into the header map of the case. -/
theorem executeMultiplePayloads_header_not_refreshed :
    (ExecuteTest (Sample.refreshServer 0) Sample.testTwoVariants (.num 1)
        ⟨200, [], ["token"]⟩ [] ⟨[("token", "old")], []⟩).world.capturedValues =
        [("token", "new")] ∧
      substituteHeaders (Sample.refreshServer 1) [("token", "new")]
        Sample.testTwoVariants.Headers = [("Authorization", "new")] ∧
      (ExecuteTest (Sample.refreshServer 0) Sample.testTwoVariants (.num 1)
        ⟨200, [], ["token"]⟩ [] ⟨[("token", "old")], []⟩).headers =
        [("Authorization", "old")] ∧
      (executeMultiplePayloads Sample.refreshServer Sample.testTwoVariants
          ⟨[], ⟨[("token", "old")], []⟩, [], []⟩).map
          (fun st => st.sent.map Request.Header) =
        some [[("Authorization", "old")], [("Authorization", "old")]] := by
  decide

/-! ## Lock discipline -/

/-- A store read before the lock is taken breaks the discipline. -/
theorem storeAccessesLocked_read_first (rest : List Event) :
    storeAccessesLocked false (Event.readStore :: rest) = false := by
  simp [storeAccessesLocked]

theorem executeTestEvents_starts_with_reads (env : Env) (test : TestCase) (payload : JVal)
    (expected : ExpectedResponse) (w : World) :
    ∃ rest, executeTestEvents env test payload expected w =
      payload.strings.map (fun _ => Event.readStore) ++ rest := by
  unfold executeTestEvents
  cases env.newRequest test.Method test.URL with
  | some err => exact ⟨[], by simp⟩
  | none =>
    cases hrt : env.roundTrip (buildRequest env test payload w) with
    | error err => exact ⟨_, by simp only [List.append_assoc]; rfl⟩
    | ok r =>
      obtain ⟨statusCode, actualBody⟩ := r
      by_cases h : statusCode = expected.Status
      · exact ⟨_, by simp only [h, ne_eq, not_true_eq_false, if_false, List.append_assoc]; rfl⟩
      · exact ⟨_, by simp only [h, ne_eq, not_false_eq_true, if_true, List.append_assoc]; rfl⟩

/-- Every call whose payload holds a string leaf reads the store without the
lock. -/
theorem payloadEvents_unlocked_of_string_leaf (env : Env) (test : TestCase)
    (payload : JVal) (expected : ExpectedResponse) (w : World)
    (h : payload.strings ≠ []) :
    storeAccessesLocked false (payloadEvents env test payload expected w) = false := by
  obtain ⟨rest, hrest⟩ := executeTestEvents_starts_with_reads env test payload expected w
  unfold payloadEvents
  rw [hrest]
  cases hs : payload.strings with
  | nil => exact absurd hs h
  | cons s ss => simp [storeAccessesLocked]

/-- C16. The call of `ExecuteTest` for test A of the scenario, answered with
status 200 and `{"token":"abc123"}`: the store is read for the string leaf of
the payload before any lock is taken, and `token` is written after the lock
has been released, so the store accesses are not made with the lock held,
while the writes to `dependencies` and to the results are. -/
theorem executeTest_store_access_unlocked :
    payloadEvents (Sample.server 200 [("token", .str "abc123")]) Sample.testA
        (.obj [("user", .str "u")]) ⟨200, [("token", .str "abc123")], []⟩
        Sample.emptyWorld =
        [Event.readStore, Event.lock, Event.writeDependencies "A", Event.unlock,
          Event.writeStore "token", Event.lock, Event.appendResult, Event.unlock] ∧
      storeAccessesLocked false
        (payloadEvents (Sample.server 200 [("token", .str "abc123")]) Sample.testA
          (.obj [("user", .str "u")]) ⟨200, [("token", .str "abc123")], []⟩
          Sample.emptyWorld) = false ∧
      guardedWritesLocked false
        (payloadEvents (Sample.server 200 [("token", .str "abc123")]) Sample.testA
          (.obj [("user", .str "u")]) ⟨200, [("token", .str "abc123")], []⟩
          Sample.emptyWorld) = true := by
  decide

/-! ## Substitution in tokenized strings does not depend on the visiting order -/

theorem replaceChars_zero_cons (old new : List Char) (c : Char) (cs : List Char) :
    strings.replaceChars old new 0 (c :: cs) =
      if old.isPrefixOf (c :: cs) = true then
        new ++ strings.replaceChars old new (old.length - 1) cs
      else c :: strings.replaceChars old new 0 cs := by
  simp [strings.replaceChars]

theorem replaceChars_skip (old new : List Char) (F : List Char) :
    ∀ xs : List Char, strings.replaceChars old new xs.length (xs ++ F) =
      strings.replaceChars old new 0 F := by
  intro xs
  induction xs with
  | nil => rfl
  | cons c xs ih => simpa [strings.replaceChars] using ih

theorem replaceChars_pass (g new : List Char) (F : List Char) :
    ∀ xs : List Char, '$' ∉ xs →
      strings.replaceChars ('$' :: g) new 0 (xs ++ F) =
        xs ++ strings.replaceChars ('$' :: g) new 0 F := by
  intro xs
  induction xs with
  | nil => intro _; rfl
  | cons c xs ih =>
    intro h
    simp only [List.mem_cons, not_or] at h
    have hc : ('$' == c) = false := by simpa using h.1
    simp [strings.replaceChars, List.isPrefixOf, hc, ih h.2]

theorem Piece.flatten_nil : Piece.flatten [] = [] := rfl

theorem Piece.flatten_cons (p : Piece) (ps : List Piece) :
    Piece.flatten (p :: ps) = p.chars ++ Piece.flatten ps := by
  simp [Piece.flatten]

theorem Piece.flatten_append (ps qs : List Piece) :
    Piece.flatten (ps ++ qs) = Piece.flatten ps ++ Piece.flatten qs := by
  simp [Piece.flatten]

theorem Piece.flatten_chars (cs : List Char) : Piece.flatten (cs.map Piece.char) = cs := by
  induction cs with
  | nil => rfl
  | cons c cs ih => simp [Piece.flatten_cons, Piece.chars, ih]

/-- One `ReplaceAll` on a tokenized string replaces the tokens of its key and
nothing else. -/
theorem replaceChars_flatten (keys : List String) (g : String) (w : List Char)
    (hg : g ∈ keys)
    (hdollar : ∀ k ∈ keys, '$' ∉ k.data)
    (hfree : ∀ a ∈ keys, ∀ b ∈ keys, a.data <+: b.data → a = b) :
    ∀ ps : List Piece, (∀ p ∈ ps, Piece.ok keys p) →
      strings.replaceChars ('$' :: g.data) w 0 (Piece.flatten ps) =
        Piece.flatten (ps.flatMap (Piece.expand g (String.mk w))) := by
  intro ps
  induction ps with
  | nil => intro _; rfl
  | cons p ps ih =>
    intro hok
    have ihps := ih (fun q hq => hok q (List.mem_cons_of_mem _ hq))
    have hp := hok p (List.mem_cons_self _ _)
    rw [Piece.flatten_cons, List.flatMap_cons, Piece.flatten_append]
    cases p with
    | char c =>
      have hc : c ≠ '$' := hp
      have hpass := replaceChars_pass g.data w (Piece.flatten ps) [c] (by simpa using hc.symm)
      simp only [Piece.chars, Piece.expand]
      rw [hpass, ihps]
      rfl
    | token k =>
      have hk : k ∈ keys := hp
      have hchars : (Piece.token k).chars ++ Piece.flatten ps =
          '$' :: (k.data ++ Piece.flatten ps) := rfl
      rw [hchars, replaceChars_zero_cons]
      by_cases hkg : k = g
      · subst hkg
        have hpre : ('$' :: k.data).isPrefixOf ('$' :: (k.data ++ Piece.flatten ps)) = true :=
          List.isPrefixOf_iff_prefix.mpr
            ((List.prefix_cons_inj '$').mpr (List.prefix_append _ _))
        have hlen : ('$' :: k.data).length - 1 = k.data.length := by simp
        rw [if_pos hpre, hlen, replaceChars_skip, ihps]
        simp [Piece.expand, Piece.flatten_chars]
      · have hpre : ¬ (('$' :: g.data).isPrefixOf ('$' :: (k.data ++ Piece.flatten ps)) =
            true) := by
          intro hb
          have h1 : g.data <+: k.data ++ Piece.flatten ps :=
            (List.prefix_cons_inj '$').mp (List.isPrefixOf_iff_prefix.mp hb)
          rcases List.prefix_or_prefix_of_prefix h1 (List.prefix_append _ _) with h | h
          · exact hkg (hfree g hg k hk h).symm
          · exact hkg (hfree k hk g hg h)
        rw [if_neg hpre, replaceChars_pass g.data w (Piece.flatten ps) k.data (hdollar k hk),
          ihps]
        simp [Piece.expand, hkg, Piece.flatten_cons, Piece.chars, Piece.flatten_nil]

theorem Piece.expandAll_nil (ps : List Piece) : Piece.expandAll [] ps = ps := rfl

theorem Piece.expandAll_cons (kv : String × String) (rest : List (String × String))
    (ps : List Piece) :
    Piece.expandAll (kv :: rest) ps =
      Piece.expandAll rest (ps.flatMap (Piece.expand kv.1 kv.2)) := rfl

theorem Piece.ok_expand (keys : List String) (g w : String) (hw : '$' ∉ w.data) :
    ∀ ps : List Piece, (∀ p ∈ ps, Piece.ok keys p) →
      ∀ q ∈ ps.flatMap (Piece.expand g w), Piece.ok keys q := by
  intro ps hok q hq
  obtain ⟨p, hp, hqp⟩ := List.mem_flatMap.mp hq
  cases p with
  | char c =>
    simp only [Piece.expand, List.mem_singleton] at hqp
    subst hqp
    exact hok _ hp
  | token k =>
    by_cases hkg : k = g
    · simp only [Piece.expand, hkg, if_true, List.mem_map] at hqp
      obtain ⟨c, hc, rfl⟩ := hqp
      intro heq
      exact hw (heq ▸ hc)
    · simp only [Piece.expand, hkg, if_false, List.mem_singleton] at hqp
      subst hqp
      exact hok _ hp

theorem replaceAll_data_of_token (s key value : String) :
    (strings.ReplaceAll s ("$" ++ key) value).data =
      strings.replaceChars ('$' :: key.data) value.data 0 s.data := by
  have hne : ("$" ++ key).data ≠ [] := by simp
  have hold : ("$" ++ key).data = '$' :: key.data := by simp
  unfold strings.ReplaceAll
  rw [if_neg hne, hold]

/-- Visiting entries of the store one after the other in a tokenized string
replaces the tokens piece by piece. -/
theorem replaceInString_flatten (keys : List String)
    (hdollar : ∀ k ∈ keys, '$' ∉ k.data)
    (hfree : ∀ a ∈ keys, ∀ b ∈ keys, a.data <+: b.data → a = b) :
    ∀ visited : List (String × String),
      (∀ kv ∈ visited, kv.1 ∈ keys ∧ '$' ∉ kv.2.data) →
      ∀ (ps : List Piece) (s : String), (∀ p ∈ ps, Piece.ok keys p) →
        s.data = Piece.flatten ps →
        (replaceInString visited s).data = Piece.flatten (Piece.expandAll visited ps) := by
  intro visited
  induction visited with
  | nil => intro _ ps s _ hs; exact hs
  | cons kv rest ih =>
    intro hvis ps s hok hs
    obtain ⟨hkey, hval⟩ := hvis kv (List.mem_cons_self _ _)
    rw [replaceInString_cons, Piece.expandAll_cons]
    apply ih (fun kv' hkv' => hvis kv' (List.mem_cons_of_mem _ hkv'))
    · exact Piece.ok_expand keys kv.1 kv.2 hval ps hok
    · rw [replaceAll_data_of_token, hs,
        replaceChars_flatten keys kv.1 kv.2.data hkey hdollar hfree ps hok]

theorem Piece.resolve_expand (g w : String) (rest : List (String × String)) :
    ∀ ps : List Piece,
      (ps.flatMap (Piece.expand g w)).flatMap (Piece.resolve rest) =
        ps.flatMap (Piece.resolve ((g, w) :: rest)) := by
  intro ps
  induction ps with
  | nil => rfl
  | cons p ps ih =>
    rw [List.flatMap_cons, List.flatMap_append, ih, List.flatMap_cons]
    congr 1
    cases p with
    | char c => simp [Piece.expand, Piece.resolve]
    | token k =>
      by_cases hkg : k = g
      · subst hkg
        simp only [Piece.expand, if_true, Piece.resolve, GoMap.get]
        induction w.data with
        | nil => rfl
        | cons c cs ihc => simp [List.flatMap_cons, Piece.resolve, ihc]
      · have hgk : ¬ g = k := fun h => hkg h.symm
        simp [Piece.expand, hkg, Piece.resolve, GoMap.get, hgk]

/-- After all the visited entries, every piece stands for its resolution. -/
theorem Piece.flatten_expandAll :
    ∀ (visited : List (String × String)) (ps : List Piece),
      Piece.flatten (Piece.expandAll visited ps) = ps.flatMap (Piece.resolve visited) := by
  intro visited
  induction visited with
  | nil =>
    intro ps
    have hfun : Piece.chars = Piece.resolve [] := by
      funext p
      cases p <;> rfl
    rw [Piece.expandAll_nil]
    unfold Piece.flatten
    rw [hfun]
  | cons kv rest ih =>
    intro ps
    obtain ⟨g, w⟩ := kv
    rw [Piece.expandAll_cons, ih, Piece.resolve_expand]

theorem GoMap.get_perm {β : Type} (l m : List (String × β)) (hperm : l.Perm m)
    (hnodup : (GoMap.keys m).Nodup) (key : String) : GoMap.get l key = GoMap.get m key := by
  have hnodupl : (GoMap.keys l).Nodup := (hperm.map Prod.fst).nodup_iff.mpr hnodup
  cases hget : GoMap.get m key with
  | none =>
    rw [GoMap.get_eq_none_iff] at hget ⊢
    exact fun hin => hget ((hperm.map Prod.fst).mem_iff.mp hin)
  | some v =>
    exact GoMap.get_of_mem l key v hnodupl (hperm.mem_iff.mpr (GoMap.mem_of_get m key v hget))

theorem Tokenized.pieces (keys : List String) (cs : List Char) (h : Tokenized keys cs) :
    ∃ ps : List Piece, Piece.flatten ps = cs ∧ ∀ p ∈ ps, Piece.ok keys p := by
  induction h with
  | done => exact ⟨[], rfl, by simp⟩
  | text c cs hc _ ih =>
    obtain ⟨ps, hps, hok⟩ := ih
    refine ⟨Piece.char c :: ps, by simp [Piece.flatten_cons, Piece.chars, hps], ?_⟩
    intro p hp
    rcases List.mem_cons.mp hp with rfl | hp
    · exact hc
    · exact hok p hp
  | token key cs hkey _ ih =>
    obtain ⟨ps, hps, hok⟩ := ih
    refine ⟨Piece.token key :: ps, by simp [Piece.flatten_cons, Piece.chars, hps], ?_⟩
    intro p hp
    rcases List.mem_cons.mp hp with rfl | hp
    · exact hkey
    · exact hok p hp

/-- In a store whose keys and values hold no `$` and none of whose keys begins
another, a string in which every `$` begins the token of a key is rewritten,
in every visiting order, to the string with every token replaced by the
value of its key. -/
theorem replaceInString_tokenized (store : Store) (hkeys : (GoMap.keys store).Nodup)
    (hdollar : ∀ kv ∈ store, '$' ∉ kv.1.data ∧ '$' ∉ kv.2.data)
    (hfree : ∀ a ∈ GoMap.keys store, ∀ b ∈ GoMap.keys store, a.data <+: b.data → a = b)
    (ps : List Piece) (hok : ∀ p ∈ ps, Piece.ok (GoMap.keys store) p) (s : String)
    (hs : s.data = Piece.flatten ps)
    (visited : List (String × String)) (hperm : visited.Perm store) :
    (replaceInString visited s).data = ps.flatMap (Piece.resolve store) := by
  have hkd : ∀ k ∈ GoMap.keys store, '$' ∉ k.data := by
    intro k hk
    obtain ⟨kv, hkv, rfl⟩ := List.mem_map.mp hk
    exact (hdollar kv hkv).1
  have hvis : ∀ kv ∈ visited, kv.1 ∈ GoMap.keys store ∧ '$' ∉ kv.2.data := by
    intro kv hkv
    have hmem := hperm.mem_iff.mp hkv
    exact ⟨List.mem_map.mpr ⟨kv, hmem, rfl⟩, (hdollar kv hmem).2⟩
  rw [replaceInString_flatten (GoMap.keys store) hkd hfree visited hvis ps s hok hs,
    Piece.flatten_expandAll]
  congr 1
  funext p
  cases p with
  | char c => rfl
  | token k => simp only [Piece.resolve, GoMap.get_perm visited store hperm hkeys k]

/-- Where the tokens cannot interfere the visiting order does not matter: for a
store whose keys and values hold no `$` and none of whose keys begins another
key, and for a string in which every `$` begins the token of a key of the
store, `ReplaceCapturedValues` returns the same string for every order in
which the entries of the store are visited. -/
theorem replaceCapturedValues_order_independent (store : Store)
    (hkeys : (GoMap.keys store).Nodup)
    (hdollar : ∀ kv ∈ store, '$' ∉ kv.1.data ∧ '$' ∉ kv.2.data)
    (hfree : ∀ a ∈ GoMap.keys store, ∀ b ∈ GoMap.keys store, a.data <+: b.data → a = b)
    (s : String) (htok : Tokenized (GoMap.keys store) s.data)
    (o1 o2 : RangeOrder) (h1 : o1.Valid) (h2 : o2.Valid) :
    ReplaceCapturedValues o1 store (.str s) = ReplaceCapturedValues o2 store (.str s) := by
  obtain ⟨ps, hps, hok⟩ := Tokenized.pieces (GoMap.keys store) s.data htok
  have e1 := replaceInString_tokenized store hkeys hdollar hfree ps hok s hps.symm
    (o1 [] store) (h1 [] store)
  have e2 := replaceInString_tokenized store hkeys hdollar hfree ps hok s hps.symm
    (o2 [] store) (h2 [] store)
  simp only [ReplaceCapturedValues, JVal.str.injEq]
  exact String.ext (e1.trans e2.symm)

/-- The store `token = abc123`, `user = ann` and the string `$user:$token`,
visited as listed and in reverse: both give `ann:abc123`. -/
theorem replaceCapturedValues_order_independent_witness :
    ReplaceCapturedValues RangeOrder.stored [("token", "abc123"), ("user", "ann")]
        (.str "$user:$token") =
        ReplaceCapturedValues RangeOrder.reversed [("token", "abc123"), ("user", "ann")]
          (.str "$user:$token") ∧
      ReplaceCapturedValues RangeOrder.stored [("token", "abc123"), ("user", "ann")]
        (.str "$user:$token") = .str "ann:abc123" :=
  ⟨replaceCapturedValues_order_independent [("token", "abc123"), ("user", "ann")]
      (by decide) (by decide)
      (by
        intro a ha b hb hab
        simp only [GoMap.keys, List.map_cons, List.map_nil, List.mem_cons,
          List.mem_singleton, List.not_mem_nil, or_false] at ha hb
        rcases ha with rfl | rfl <;> rcases hb with rfl | rfl
        · rfl
        · exact absurd hab (by decide)
        · exact absurd hab (by decide)
        · rfl)
      "$user:$token"
      (Tokenized.token "user" _ (by decide)
        (Tokenized.text ':' _ (by decide)
          (Tokenized.token "token" [] (by decide) Tokenized.done)))
      RangeOrder.stored RangeOrder.reversed RangeOrder.stored_valid
      RangeOrder.reversed_valid,
    by decide⟩

/-- C13. With `token` captured as `abc123` and `token_type` as `Bearer`, both
visiting orders are orders of the `range` over the store, and the string
`$token_type` is rewritten to `abc123_type` when the entries are visited as
listed and to `Bearer` when they are visited in reverse: the result depends
on the visiting order. -/
theorem replaceCapturedValues_order_dependent :
    RangeOrder.Valid RangeOrder.stored ∧ RangeOrder.Valid RangeOrder.reversed ∧
      ReplaceCapturedValues RangeOrder.stored [("token", "abc123"), ("token_type", "Bearer")]
          (.str "$token_type") = .str "abc123_type" ∧
      ReplaceCapturedValues RangeOrder.reversed
          [("token", "abc123"), ("token_type", "Bearer")] (.str "$token_type") =
        .str "Bearer" ∧
      ReplaceCapturedValues RangeOrder.stored [("token", "abc123"), ("token_type", "Bearer")]
          (.str "$token_type") ≠
        ReplaceCapturedValues RangeOrder.reversed
          [("token", "abc123"), ("token_type", "Bearer")] (.str "$token_type") :=
  ⟨RangeOrder.stored_valid, RangeOrder.reversed_valid, by decide, by decide, by decide⟩

end Dtestapi
